import Mathlib

/-!
# Stack blur (`jni/blur.c`): a shallow embedding and its properties

The pixel buffer is a list of bytes (naturals below 256) addressed by byte
offset.  Pointers to pixels (`src`, `dst`, `last`) are byte offsets into the
buffer; advancing a pixel pointer by `stride` pixels adds `4 * stride` bytes.
The `int32_t` accumulators `sum`, `sum_in`, `sum_out` and the divisor
`div_sum` are integers reduced to the two's-complement 32-bit range after
every operation.  Quantities that index memory (`div`, `stack_i`,
`stack_drop`, loop counters, line indices, `w`, `h`, strides) are naturals;
the results below assume `w ≥ 1` and `h ≥ 1`, where `w - 1` and `h - 1` agree
with the C expressions.  A read outside a buffer yields 0 and a write outside
a buffer is dropped; the results below assume that the lines lie inside the
buffer.  The `while (true)` loop is driven by a fuel argument and yields
`none` when the fuel runs out.
-/

namespace StackBlur

/-! ## Machine arithmetic and memory -/

/-- Reduction of an integer to the `int32_t` range (two's complement). -/
def wrap32 (x : Int) : Int := (x + 2147483648) % 4294967296 - 2147483648

/-- The cast `(uint8_t) x`. -/
def toU8 (x : Int) : Nat := (x % 256).toNat

/-- Byte read `m[a]`. -/
def rd (m : List Nat) (a : Nat) : Nat := m.getD a 0

/-- Read of an `int32_t` array cell. -/
def rdI (m : List Int) (a : Nat) : Int := m.getD a 0

/-- The `clamp(a,min,max)` macro of `blur.c`. -/
def clamp (a lo hi : Int) : Int := if a < lo then lo else if a > hi then hi else a

/-! ## `blur_line` -/

/-- The mutable state of `blur_line`: the two buffers and the locals. -/
structure Frame where
  bitmap : List Nat
  stack : List Nat
  sum : List Int
  sum_out : List Int
  sum_in : List Int
  src : Nat
  dst : Nat
  stack_i : Nat
  stack_drop : Nat
deriving DecidableEq, Repr

/-- The loop `for (int j = 0; j < channels; j++) body`. -/
def forChannels (channels : Nat) (body : Frame → Nat → Frame) (s : Frame) : Frame :=
  (List.range channels).foldl body s

/-- Body of the inner loop at lines 49-54 (left priming, slot `i`). -/
def primeLeftChan (channels i : Nat) (s : Frame) (j : Nat) : Frame :=
  let byte := rd s.bitmap (s.src + j)
  { s with
    stack := s.stack.set (i * channels + j) byte
    sum := s.sum.set j (wrap32 (rdI s.sum j + wrap32 ((byte : Int) * ((i : Int) + 1))))
    sum_out := s.sum_out.set j (wrap32 (rdI s.sum_out j + (byte : Int))) }

/-- The loop at lines 48-55. -/
def primeLeft (channels radius : Nat) (s : Frame) : Frame :=
  (List.range (radius + 1)).foldl (fun s i => forChannels channels (primeLeftChan channels i) s) s

/-- Body of the inner loop at lines 60-66 (right priming, counter `i`). -/
def primeRightChan (channels radius i : Nat) (s : Frame) (j : Nat) : Frame :=
  let s := { s with stack_i := i + radius }
  let byte := rd s.bitmap (s.src + j)
  { s with
    stack := s.stack.set (s.stack_i * channels + j) byte
    sum := s.sum.set j
      (wrap32 (rdI s.sum j + wrap32 ((byte : Int) * wrap32 ((radius : Int) + 1 - (i : Int)))))
    sum_in := s.sum_in.set j (wrap32 (rdI s.sum_in j + (byte : Int))) }

/-- The statement `if (src != last) src += stride;`. -/
def advanceSrc (stride last : Nat) (s : Frame) : Frame :=
  if s.src ≠ last then { s with src := s.src + 4 * stride } else s

/-- The loop at lines 56-67; the counter `i` runs over `1..radius`. -/
def primeRight (channels radius stride last : Nat) (s : Frame) : Frame :=
  (List.range radius).foldl
    (fun s k => forChannels channels (primeRightChan channels radius (k + 1))
      (advanceSrc stride last s)) s

/-- Body of the inner loop at lines 86-88: emit one output byte. -/
def emitChan (div_sum : Int) (s : Frame) (j : Nat) : Frame :=
  { s with bitmap := s.bitmap.set (s.dst + j) (toU8 (Int.tdiv (rdI s.sum j) div_sum)) }

/-- Lines 72-88: advance the read cursor and the circular indices, emit. -/
def emitStep (channels stride last div : Nat) (div_sum : Int) (s : Frame) : Frame :=
  let s := advanceSrc stride last s
  let s := { s with stack_i := if s.stack_i = div - 1 then 0 else s.stack_i + 1 }
  let s := { s with stack_drop := if s.stack_drop = div - 1 then 0 else s.stack_drop + 1 }
  forChannels channels (emitChan div_sum) s

/-- Body of the inner loop at lines 95-106: slide the window by one pixel. -/
def slideChan (channels : Nat) (s : Frame) (j : Nat) : Frame :=
  let sum1 := wrap32 (rdI s.sum j - rdI s.sum_out j)
  let sum_out1 := wrap32 (rdI s.sum_out j - (rd s.stack (s.stack_drop * channels + j) : Int))
  let byte := rd s.bitmap (s.src + j)
  let stack1 := s.stack.set (s.stack_drop * channels + j) byte
  let sum_in1 := wrap32 (rdI s.sum_in j + (byte : Int))
  let sum2 := wrap32 (sum1 + sum_in1)
  let sum_out2 := wrap32 (sum_out1 + (rd stack1 (s.stack_i * channels + j) : Int))
  let sum_in2 := wrap32 (sum_in1 - (rd stack1 (s.stack_i * channels + j) : Int))
  { s with
    stack := stack1
    sum := s.sum.set j sum2
    sum_out := s.sum_out.set j sum_out2
    sum_in := s.sum_in.set j sum_in2 }

/-- Lines 93-106: move the write cursor and slide the window. -/
def slideStep (channels stride : Nat) (s : Frame) : Frame :=
  forChannels channels (slideChan channels) { s with dst := s.dst + 4 * stride }

/-- The `while (true)` loop at lines 71-107; `none` when the fuel runs out. -/
def sweep (channels stride last div : Nat) (div_sum : Int) : Nat → Frame → Option Frame
  | 0, _ => none
  | fuel + 1, s =>
    let s := emitStep channels stride last div div_sum s
    if s.dst = last then some s
    else sweep channels stride last div div_sum fuel (slideStep channels stride s)

/-- The function `blur_line`; returns the pixel buffer and the scratch buffer. -/
def blur_line (fuel : Nat) (bitmap : List Nat) (w h img_stride radius : Nat) (blurAlpha : Bool)
    (line_idx : Nat) (horizontal : Bool) (in_stack : List Nat) :
    Option (List Nat × List Nat) :=
  let channels := if blurAlpha then 4 else 3
  let div := radius * 2 + 1
  let div_sum := wrap32 (wrap32 ((radius : Int) + 1) * wrap32 ((radius : Int) + 1))
  let stride := if horizontal then 1 else img_stride / 4
  let src := if horizontal then img_stride * line_idx else 4 * line_idx
  let last := if horizontal then src + 4 * ((w - 1) * stride) else src + 4 * ((h - 1) * stride)
  let s : Frame :=
    { bitmap := bitmap, stack := in_stack
      sum := [0, 0, 0, 0], sum_out := [0, 0, 0, 0], sum_in := [0, 0, 0, 0]
      src := src, dst := src, stack_i := 0, stack_drop := 0 }
  let s := primeLeft channels radius s
  let s := primeRight channels radius stride last s
  let s := { s with stack_i := radius, stack_drop := div - 1 }
  (sweep channels stride last div div_sum fuel s).map (fun s => (s.bitmap, s.stack))

/-! ## `stackblurJob` -/

/-- The loop `for (int i = min; i < max; i++) blur_line(...)` over a list of line indices. -/
def blurLines (fuel w h stride radius : Nat) (blur_alpha horizontal : Bool) :
    List Nat → List Nat × List Nat → Option (List Nat × List Nat)
  | [], p => some p
  | i :: rest, p =>
    (blur_line fuel p.1 w h stride radius blur_alpha i horizontal p.2).bind
      (blurLines fuel w h stride radius blur_alpha horizontal rest)

/-- First line of worker `core` (`min`, lines 131 and 134). -/
def jobMin (w h cores core : Nat) (horizontal : Bool) : Nat :=
  if horizontal then core * h / cores else core * w / cores

/-- One past the last line of worker `core` (`max`, lines 132 and 135). -/
def jobMax (w h cores core : Nat) (horizontal : Bool) : Nat :=
  if horizontal then (core + 1) * h / cores else (core + 1) * w / cores

/-- The function `stackblurJob`; `malloc n` is the allocator's answer to a request of `n`
bytes (`none` for a null pointer).  Returns the return code and the pixel buffer. -/
def stackblurJob (fuel : Nat) (malloc : Nat → Option (List Nat)) (src : List Nat)
    (w h stride radius cores core : Nat) (horizontal : Bool) : Option (Int × List Nat) :=
  let blur_alpha := false
  let channels := 3 + (if blur_alpha then 1 else 0)
  let div := radius * 2 + 1
  match malloc (div * channels * 1) with
  | none => some (1, src)
  | some stack =>
    let min := jobMin w h cores core horizontal
    let max := jobMax w h cores core horizontal
    (blurLines fuel w h stride radius blur_alpha horizontal (List.range' min (max - min))
      (src, stack)).map (fun p => (0, p.1))

/-! ## Specification-level quantities -/

/-- Byte offset of pixel `y` on a line whose first pixel is at byte `base` and whose
neighbouring pixels are `stride` pixels apart. -/
def pixAt (base stride y : Nat) : Nat := base + 4 * (y * stride)

/-- Channel `j` of the line pixel that belongs to the running window index `a`: the pixel
at position `a - r` clamped to `0..n-1` (truncated subtraction clamps at `0`). -/
def winVal (bm : List Nat) (base stride n r j a : Nat) : Int :=
  (rd bm (pixAt base stride (min (a - r) (n - 1)) + j) : Int)

/-- Plain sum of `m` consecutive window values starting at index `y`. -/
def Wsum (v : Nat → Int) : Nat → Nat → Int
  | 0, _ => 0
  | m + 1, y => Wsum v m y + v (y + m)

/-- Rising ramp: values `v x .. v (x+m-1)` with weights `1 .. m`. -/
def Asum (v : Nat → Int) : Nat → Nat → Int
  | 0, _ => 0
  | m + 1, x => Asum v m x + ((m : Int) + 1) * v (x + m)

/-- Falling ramp: values `v y .. v (y+m-1)` with weights `c, c-1, ..`. -/
def Bsum (v : Nat → Int) (c : Int) : Nat → Nat → Int
  | 0, _ => 0
  | m + 1, y => Bsum v c m y + (c - (m : Int)) * v (y + m)

/-- Triangular weighted sum of the `2r+1` window values starting at index `x`. -/
def triSum (v : Nat → Int) (r x : Nat) : Int :=
  Asum v (r + 1) x + Bsum v (r : Int) r (x + r + 1)

/-- Number of blurred channels (`channels` in `blur_line`). -/
def chans (blurAlpha : Bool) : Nat := if blurAlpha then 4 else 3

/-- Byte offset of the first pixel of line `line_idx` (lines 40 and 44). -/
def lineBase (img_stride line_idx : Nat) (horizontal : Bool) : Nat :=
  if horizontal then img_stride * line_idx else 4 * line_idx

/-- Distance in pixels between neighbouring pixels of a line (lines 39 and 43). -/
def lineStride (img_stride : Nat) (horizontal : Bool) : Nat :=
  if horizontal then 1 else img_stride / 4

/-- Number of pixels on a line: `w` for a row, `h` for a column. -/
def lineLen (w h : Nat) (horizontal : Bool) : Nat := if horizontal then w else h

/-- The divisor `div_sum` as `blur_line` computes it in `int32_t`. -/
def divSum (radius : Nat) : Int :=
  wrap32 (wrap32 ((radius : Int) + 1) * wrap32 ((radius : Int) + 1))

/-- The byte `blur_line` stores at position `y`, channel `j`, of a line, as a function of
the buffer content `bm` before the call. -/
def outByte (bm : List Nat) (base stride n r j y : Nat) : Nat :=
  toU8 (Int.tdiv (wrap32 (triSum (winVal bm base stride n r j) r y)) (divSum r))

/-- Byte address of channel `j` of pixel `y` on line `i`, as `blur_line` computes it. -/
def lineAddr (stride : Nat) (horizontal : Bool) (i y j : Nat) : Nat :=
  pixAt (lineBase stride i horizontal) (lineStride stride horizontal) y + j

/-- The value the specification prescribes for position `x` of a line of length `n` whose channel
values are `inp 0 .. inp (n-1)`: the floor of the sum over `k = -r..r` of
`(r+1-|k|) * inp (clamp (x+k) 0 (n-1))`, divided by `(r+1)^2`.  The list index `t` is `k+r`. -/
def triangularAverage (inp : Nat → Nat) (n r x : Nat) : Int :=
  ((List.range (2 * r + 1)).map (fun t : Nat =>
    ((r : Int) + 1 - |(t : Int) - (r : Int)|) *
      (inp (clamp ((x : Int) + ((t : Int) - (r : Int))) 0 ((n : Int) - 1)).toNat : Int))).sum /
    (((r : Int) + 1) ^ 2)

/-- Every cell of the buffer is a byte. -/
def Bytes (bm : List Nat) : Prop := ∀ b ∈ bm, b < 256

/-- State of the sweep at the head of the `while` loop, before position `x` is emitted. -/
structure SweepInv (bm0 : List Nat) (base stride n r c L : Nat) (ds : Int) (x : Nat)
    (s : Frame) : Prop where
  src_eq : s.src = pixAt base stride (min (x + r) (n - 1))
  dst_eq : s.dst = pixAt base stride x
  si_eq : s.stack_i = (r + x) % (r * 2 + 1)
  sd_eq : s.stack_drop = (r * 2 + x) % (r * 2 + 1)
  len_bm : s.bitmap.length = bm0.length
  len_st : s.stack.length = L
  len_sum : s.sum.length = 4
  len_out : s.sum_out.length = 4
  len_in : s.sum_in.length = 4
  written : ∀ y j, y < x → j < c → rd s.bitmap (pixAt base stride y + j) =
    toU8 (Int.tdiv (wrap32 (triSum (winVal bm0 base stride n r j) r y)) ds)
  frame : ∀ a, (∀ y j, y < x → j < c → a ≠ pixAt base stride y + j) →
    rd s.bitmap a = rd bm0 a
  window : ∀ t j, t < r * 2 + 1 → j < c →
    (rd s.stack (((x + t) % (r * 2 + 1)) * c + j) : Int) = winVal bm0 base stride n r j (x + t)
  sums : ∀ j, j < c →
    rdI s.sum j = wrap32 (triSum (winVal bm0 base stride n r j) r x) ∧
    rdI s.sum_out j = wrap32 (Wsum (winVal bm0 base stride n r j) (r + 1) x) ∧
    rdI s.sum_in j = wrap32 (Wsum (winVal bm0 base stride n r j) r (x + r + 1))

/-- State of the sweep right after position `x` has been emitted (line 88). -/
structure EmitInv (bm0 : List Nat) (base stride n r c L : Nat) (ds : Int) (x : Nat)
    (s : Frame) : Prop where
  src_eq : s.src = pixAt base stride (min (x + r + 1) (n - 1))
  dst_eq : s.dst = pixAt base stride x
  si_eq : s.stack_i = (r + x + 1) % (r * 2 + 1)
  sd_eq : s.stack_drop = x % (r * 2 + 1)
  len_bm : s.bitmap.length = bm0.length
  len_st : s.stack.length = L
  len_sum : s.sum.length = 4
  len_out : s.sum_out.length = 4
  len_in : s.sum_in.length = 4
  written : ∀ y j, y < x + 1 → j < c → rd s.bitmap (pixAt base stride y + j) =
    toU8 (Int.tdiv (wrap32 (triSum (winVal bm0 base stride n r j) r y)) ds)
  frame : ∀ a, (∀ y j, y < x + 1 → j < c → a ≠ pixAt base stride y + j) →
    rd s.bitmap a = rd bm0 a
  window : ∀ t j, t < r * 2 + 1 → j < c →
    (rd s.stack (((x + t) % (r * 2 + 1)) * c + j) : Int) = winVal bm0 base stride n r j (x + t)
  sums : ∀ j, j < c →
    rdI s.sum j = wrap32 (triSum (winVal bm0 base stride n r j) r x) ∧
    rdI s.sum_out j = wrap32 (Wsum (winVal bm0 base stride n r j) (r + 1) x) ∧
    rdI s.sum_in j = wrap32 (Wsum (winVal bm0 base stride n r j) r (x + r + 1))

/-! ## The JNI entry point -/

/-- The external calls `Java_com_enrique_stackblur_NativeBlurProcess_functionToBlur` makes,
in the order it makes them. -/
inductive Call where
  | getInfo
  | logE
  | throwOom
  | lockPixels
  | stackblurJob
  | unlockPixels
deriving DecidableEq, Repr

/-- The function `Java_com_enrique_stackblur_NativeBlurProcess_functionToBlur` (lines
156-201).  The answers of the Android bitmap API are arguments: `getInfoRet`, `lockRet` and
`unlockRet` are the return codes of `AndroidBitmap_getInfo`, `AndroidBitmap_lockPixels` and
`AndroidBitmap_unlockPixels`, `isRGBA8888` is the outcome of the format test at line 170, and
`pixels`, `w`, `h`, `stride` describe the locked bitmap.  Returns the calls made and the
pixel buffer. -/
def functionToBlur (fuel : Nat) (malloc : Nat → Option (List Nat)) (getInfoRet : Int)
    (isRGBA8888 : Bool) (lockRet unlockRet : Int) (pixels : List Nat)
    (w h stride radius threadCount threadIndex : Nat) (horizontal : Bool) :
    Option (List Call × List Nat) :=
  if getInfoRet ≠ 0 then some ([Call.getInfo, Call.logE], pixels)
  else if ¬ isRGBA8888 then some ([Call.getInfo, Call.logE, Call.logE], pixels)
  else if lockRet ≠ 0 then
    some ([Call.getInfo, Call.lockPixels, Call.logE, Call.throwOom], pixels)
  else
    (stackblurJob fuel malloc pixels w h stride radius threadCount threadIndex horizontal).map
      (fun p =>
        if p.1 ≠ 0 then
          ([Call.getInfo, Call.lockPixels, Call.stackblurJob, Call.logE, Call.throwOom], p.2)
        else if unlockRet ≠ 0 then
          ([Call.getInfo, Call.lockPixels, Call.stackblurJob, Call.unlockPixels, Call.logE,
            Call.throwOom], p.2)
        else ([Call.getInfo, Call.lockPixels, Call.stackblurJob, Call.unlockPixels], p.2))

/-! ## The states of the sweep -/

/-- The frames right after each execution of the emit loop (line 88) of the `while (true)`
loop, in order; the control flow is that of `sweep`. -/
def sweepTrace (channels stride last div : Nat) (div_sum : Int) : Nat → Frame → List Frame
  | 0, _ => []
  | fuel + 1, s =>
    let s := emitStep channels stride last div div_sum s
    if s.dst = last then [s]
    else s :: sweepTrace channels stride last div div_sum fuel (slideStep channels stride s)

/-- The frame with which `blur_line` enters the `while (true)` loop (after line 70), for a
line that starts at byte `src` and ends at byte `last`. -/
def sweepStart (bitmap : List Nat) (channels radius stride src last : Nat)
    (in_stack : List Nat) : Frame :=
  { primeRight channels radius stride last
      (primeLeft channels radius
        { bitmap := bitmap, stack := in_stack
          sum := [0, 0, 0, 0], sum_out := [0, 0, 0, 0], sum_in := [0, 0, 0, 0]
          src := src, dst := src, stack_i := 0, stack_drop := 0 })
    with stack_i := radius, stack_drop := radius * 2 + 1 - 1 }

/-- The frames right after each emit of one `blur_line` call. -/
def blurTrace (fuel : Nat) (bitmap : List Nat) (w h img_stride radius : Nat) (blurAlpha : Bool)
    (line_idx : Nat) (horizontal : Bool) (in_stack : List Nat) : List Frame :=
  sweepTrace (chans blurAlpha) (lineStride img_stride horizontal)
    (pixAt (lineBase img_stride line_idx horizontal) (lineStride img_stride horizontal)
      (lineLen w h horizontal - 1)) (radius * 2 + 1) (divSum radius) fuel
    (sweepStart bitmap (chans blurAlpha) radius (lineStride img_stride horizontal)
      (lineBase img_stride line_idx horizontal)
      (pixAt (lineBase img_stride line_idx horizontal) (lineStride img_stride horizontal)
        (lineLen w h horizontal - 1)) in_stack)

/-! ## The accumulators in the words of the specification -/

/-- The weighted window sum over `k = -r..r` of `(r+1-|k|) * inp (clamp (x+k) 0 (n-1))`; the
list index `t` is `k+r`. -/
def triangularSum (inp : Nat → Nat) (n r x : Nat) : Int :=
  ((List.range (2 * r + 1)).map (fun t : Nat =>
    ((r : Int) + 1 - |(t : Int) - (r : Int)|) *
      (inp (clamp ((x : Int) + ((t : Int) - (r : Int))) 0 ((n : Int) - 1)).toNat : Int))).sum

/-- Lines 72-85: the statements of one iteration that precede the emit loop. -/
def emitPrep (stride last div : Nat) (s : Frame) : Frame :=
  let s := advanceSrc stride last s
  let s := { s with stack_i := if s.stack_i = div - 1 then 0 else s.stack_i + 1 }
  { s with stack_drop := if s.stack_drop = div - 1 then 0 else s.stack_drop + 1 }

/-- Checks attached to the four channel loops of `blur_line`, each at a frame `s` and a
channel `j`: `left i` for the body at lines 50-53 with counter `i`, `right i` for lines
61-65, `emit` for line 87 and `slide` for lines 96-105. -/
structure Guard where
  left : Nat → Frame → Nat → Bool
  right : Nat → Frame → Nat → Bool
  emit : Frame → Nat → Bool
  slide : Frame → Nat → Bool

/-- The channel loop with a check before every execution of its body; `none` as soon as a
check fails. -/
def forChannelsG (channels : Nat) (ok : Frame → Nat → Bool) (body : Frame → Nat → Frame)
    (s : Frame) : Option Frame :=
  (List.range channels).foldlM (fun s j => if ok s j then some (body s j) else none) s

/-- The loop at lines 48-55 with checks. -/
def primeLeftG (ok : Nat → Frame → Nat → Bool) (channels radius : Nat) (s : Frame) :
    Option Frame :=
  (List.range (radius + 1)).foldlM
    (fun s i => forChannelsG channels (ok i) (primeLeftChan channels i) s) s

/-- The loop at lines 56-67 with checks. -/
def primeRightG (ok : Nat → Frame → Nat → Bool) (channels radius stride last : Nat)
    (s : Frame) : Option Frame :=
  (List.range radius).foldlM
    (fun s k => forChannelsG channels (ok (k + 1)) (primeRightChan channels radius (k + 1))
      (advanceSrc stride last s)) s

/-- The `while (true)` loop at lines 71-107 with checks. -/
def sweepG (g : Guard) (channels stride last div : Nat) (div_sum : Int) :
    Nat → Frame → Option Frame
  | 0, _ => none
  | fuel + 1, s =>
    (forChannelsG channels g.emit (emitChan div_sum) (emitPrep stride last div s)).bind
      (fun s =>
        if s.dst = last then some s
        else
          (forChannelsG channels g.slide (slideChan channels)
            { s with dst := s.dst + 4 * stride }).bind
            (sweepG g channels stride last div div_sum fuel))

/-- The function `blur_line` with checks: the same statements as `blur_line`, every channel
loop body preceded by its check. -/
def blur_lineG (g : Guard) (fuel : Nat) (bitmap : List Nat) (w h img_stride radius : Nat)
    (blurAlpha : Bool) (line_idx : Nat) (horizontal : Bool) (in_stack : List Nat) :
    Option (List Nat × List Nat) :=
  let channels := if blurAlpha then 4 else 3
  let div := radius * 2 + 1
  let div_sum := wrap32 (wrap32 ((radius : Int) + 1) * wrap32 ((radius : Int) + 1))
  let stride := if horizontal then 1 else img_stride / 4
  let src := if horizontal then img_stride * line_idx else 4 * line_idx
  let last := if horizontal then src + 4 * ((w - 1) * stride) else src + 4 * ((h - 1) * stride)
  let s : Frame :=
    { bitmap := bitmap, stack := in_stack
      sum := [0, 0, 0, 0], sum_out := [0, 0, 0, 0], sum_in := [0, 0, 0, 0]
      src := src, dst := src, stack_i := 0, stack_drop := 0 }
  (primeLeftG g.left channels radius s).bind (fun s =>
    (primeRightG g.right channels radius stride last s).bind (fun s =>
      (sweepG g channels stride last div div_sum fuel
        { s with stack_i := radius, stack_drop := div - 1 }).map
        (fun s => (s.bitmap, s.stack))))

/-- Bounds checks of every memory access of `blur_line`: the byte read through `src` or
written through `dst` lies in the pixel buffer, the row index of `stack[.][j]` is below `div`
and the cell lies in the scratch buffer, and `j` indexes the accumulator arrays. -/
def memGuard (channels div radius : Nat) : Guard where
  left := fun i s j => decide (s.src + j < s.bitmap.length ∧ i < div ∧
    i * channels + j < s.stack.length ∧ j < s.sum.length ∧ j < s.sum_out.length)
  right := fun i s j => decide (s.src + j < s.bitmap.length ∧ i + radius < div ∧
    (i + radius) * channels + j < s.stack.length ∧ j < s.sum.length ∧ j < s.sum_in.length)
  emit := fun s j => decide (s.dst + j < s.bitmap.length ∧ j < s.sum.length)
  slide := fun s j => decide (j < s.sum.length ∧ j < s.sum_out.length ∧ j < s.sum_in.length ∧
    s.stack_drop < div ∧ s.stack_drop * channels + j < s.stack.length ∧
    s.src + j < s.bitmap.length ∧
    s.stack_i < div ∧ s.stack_i * channels + j < s.stack.length)

/-- The function `blur_line` with bounds checks on every memory access. -/
def blur_line_checked (fuel : Nat) (bitmap : List Nat) (w h img_stride radius : Nat)
    (blurAlpha : Bool) (line_idx : Nat) (horizontal : Bool) (in_stack : List Nat) :
    Option (List Nat × List Nat) :=
  blur_lineG (memGuard (if blurAlpha then 4 else 3) (radius * 2 + 1) radius) fuel bitmap w h
    img_stride radius blurAlpha line_idx horizontal in_stack

/-- The value `x` lies in `[0, B]`. -/
def inRange (B x : Int) : Bool := decide (0 ≤ x ∧ x ≤ B)

/-- Range checks of the accumulator arithmetic: the exact integer value of every product and
of every value assigned to `sum[j]`, `sum_in[j]` or `sum_out[j]`, computed from the stored
operands, lies in `[0, B]`. -/
def arithGuard (B : Int) (channels radius : Nat) : Guard where
  left := fun i s j =>
    inRange B ((rd s.bitmap (s.src + j) : Int) * ((i : Int) + 1)) &&
    inRange B (rdI s.sum j + (rd s.bitmap (s.src + j) : Int) * ((i : Int) + 1)) &&
    inRange B (rdI s.sum_out j + (rd s.bitmap (s.src + j) : Int))
  right := fun i s j =>
    inRange B ((radius : Int) + 1 - (i : Int)) &&
    inRange B ((rd s.bitmap (s.src + j) : Int) * ((radius : Int) + 1 - (i : Int))) &&
    inRange B (rdI s.sum j +
      (rd s.bitmap (s.src + j) : Int) * ((radius : Int) + 1 - (i : Int))) &&
    inRange B (rdI s.sum_in j + (rd s.bitmap (s.src + j) : Int))
  emit := fun _ _ => true
  slide := fun s j =>
    let sum1 := rdI s.sum j - rdI s.sum_out j
    let sum_out1 := rdI s.sum_out j - (rd s.stack (s.stack_drop * channels + j) : Int)
    let byte := rd s.bitmap (s.src + j)
    let stack1 := s.stack.set (s.stack_drop * channels + j) byte
    let sum_in1 := rdI s.sum_in j + (byte : Int)
    let sum2 := sum1 + sum_in1
    let sum_out2 := sum_out1 + (rd stack1 (s.stack_i * channels + j) : Int)
    let sum_in2 := sum_in1 - (rd stack1 (s.stack_i * channels + j) : Int)
    inRange B sum1 && inRange B sum_out1 && inRange B sum_in1 && inRange B sum2 &&
      inRange B sum_out2 && inRange B sum_in2

/-- The function `blur_line` with range checks on the accumulators, for the bound
`255 * (radius + 1)^2`. -/
def blur_line_ranged (fuel : Nat) (bitmap : List Nat) (w h img_stride radius : Nat)
    (blurAlpha : Bool) (line_idx : Nat) (horizontal : Bool) (in_stack : List Nat) :
    Option (List Nat × List Nat) :=
  blur_lineG (arithGuard (255 * ((radius : Int) + 1) ^ 2) (if blurAlpha then 4 else 3) radius)
    fuel bitmap w h img_stride radius blurAlpha line_idx horizontal in_stack

/-- Frames `s` and `t` agree on the buffers' sizes, the pixel buffer, the cursors and the
cells of channel `k`. -/
def ChanEq0 (c k : Nat) (s t : Frame) : Prop :=
  t.src = s.src ∧ t.dst = s.dst ∧ t.stack_drop = s.stack_drop ∧ t.bitmap = s.bitmap ∧
  t.stack.length = s.stack.length ∧ t.sum.length = s.sum.length ∧
  t.sum_out.length = s.sum_out.length ∧ t.sum_in.length = s.sum_in.length ∧
  rdI t.sum k = rdI s.sum k ∧ rdI t.sum_out k = rdI s.sum_out k ∧
  rdI t.sum_in k = rdI s.sum_in k ∧
  ∀ slot, rd t.stack (slot * c + k) = rd s.stack (slot * c + k)

/-- Agreement of two frames on channel `k`, `stack_i` included. -/
def ChanEq (c k : Nat) (s t : Frame) : Prop := ChanEq0 c k s t ∧ t.stack_i = s.stack_i

/-- The checks of `g` for channel `k` read only the buffers' sizes, the pixel buffer, the
cursors and the cells of channel `k`; the emit check does not read the pixel buffer. -/
structure GuardResp (g : Guard) (c : Nat) : Prop where
  left : ∀ i k s t, k < c → ChanEq c k s t → g.left i t k = g.left i s k
  right : ∀ i k s t, k < c → ChanEq0 c k s t → g.right i t k = g.right i s k
  slide : ∀ k s t, k < c → ChanEq c k s t → g.slide t k = g.slide s k
  emit : ∀ k (s : Frame) (bm : List Nat), k < c → bm.length = s.bitmap.length →
    g.emit { s with bitmap := bm } k = g.emit s k

/-- The frame `blur_line` starts with (lines 30-46) for a line whose first pixel is at byte
`src`. -/
def lineInit (bitmap in_stack : List Nat) (src : Nat) : Frame :=
  { bitmap := bitmap, stack := in_stack
    sum := [0, 0, 0, 0], sum_out := [0, 0, 0, 0], sum_in := [0, 0, 0, 0]
    src := src, dst := src, stack_i := 0, stack_drop := 0 }

/-! ## Arithmetic and memory lemmas -/

theorem rd_set (m : List Nat) (a b v : Nat) :
    rd (m.set a v) b = if a = b ∧ a < m.length then v else rd m b := by
  unfold rd
  simp only [List.getD_eq_getElem?_getD, List.getElem?_set]
  by_cases h : a = b
  · subst h
    by_cases h2 : a < m.length
    · simp [h2]
    · have h3 : m.length ≤ a := by omega
      simp [h2, List.getElem?_eq_none h3]
  · simp [h]

theorem rdI_set (m : List Int) (a b : Nat) (v : Int) :
    rdI (m.set a v) b = if a = b ∧ a < m.length then v else rdI m b := by
  unfold rdI
  simp only [List.getD_eq_getElem?_getD, List.getElem?_set]
  by_cases h : a = b
  · subst h
    by_cases h2 : a < m.length
    · simp [h2]
    · have h3 : m.length ≤ a := by omega
      simp [h2, List.getElem?_eq_none h3]
  · simp [h]

theorem wrap32_modEq (x : Int) : wrap32 x ≡ x [ZMOD 4294967296] := by
  unfold wrap32 Int.ModEq
  omega

theorem wrap32_congr {a b : Int} (h : a ≡ b [ZMOD 4294967296]) : wrap32 a = wrap32 b := by
  unfold wrap32
  unfold Int.ModEq at h
  omega

theorem wrap32_id {x : Int} (h0 : -2147483648 ≤ x) (h1 : x < 2147483648) : wrap32 x = x := by
  unfold wrap32; omega

theorem succ_mod_cases (a d : Nat) (hd : 0 < d) :
    (if a % d = d - 1 then 0 else a % d + 1) = (a + 1) % d := by
  have hm := Nat.mod_lt a hd
  rw [Nat.add_mod]
  split
  · next h =>
    rcases Nat.lt_or_ge 1 d with h1 | h1
    · rw [Nat.mod_eq_of_lt h1, h]
      have : d - 1 + 1 = d := by omega
      rw [this, Nat.mod_self]
    · have : d = 1 := by omega
      subst this; simp [Nat.mod_one]
  · next h =>
    have h1 : 1 < d := by omega
    have h2 : a % d + 1 < d := by omega
    rw [Nat.mod_eq_of_lt h1, Nat.mod_eq_of_lt h2]

theorem mod_add_ne (x u d : Nat) (h0 : 0 < u) (h1 : u < d) : (x + u) % d ≠ x % d := by
  intro h
  have h2 : x + u ≡ x + 0 [MOD d] := by simpa [Nat.ModEq] using h
  have h3 := Nat.ModEq.add_left_cancel' x h2
  have h4 : u % d = 0 := by simpa [Nat.ModEq] using h3
  rw [Nat.mod_eq_of_lt h1] at h4
  omega

theorem slot_inj {c a j b k : Nat} (hj : j < c) (hk : k < c) :
    a * c + j = b * c + k ↔ a = b ∧ j = k := by
  constructor
  · intro h
    have h1 : (a * c + j) / c = (b * c + k) / c := by rw [h]
    have h2 : (a * c + j) % c = (b * c + k) % c := by rw [h]
    have hc : 0 < c := by omega
    rw [Nat.mul_comm a, Nat.mul_comm b, Nat.mul_add_div hc, Nat.mul_add_div hc,
      Nat.div_eq_of_lt hj, Nat.div_eq_of_lt hk] at h1
    rw [Nat.mul_comm a, Nat.mul_comm b, Nat.mul_add_mod, Nat.mul_add_mod,
      Nat.mod_eq_of_lt hj, Nat.mod_eq_of_lt hk] at h2
    omega
  · rintro ⟨rfl, rfl⟩; rfl

theorem slot_lt {c d a j : Nat} (ha : a < d) (hj : j < c) : a * c + j < d * c := by
  have : (a + 1) * c ≤ d * c := Nat.mul_le_mul_right c ha
  rw [Nat.add_mul] at this
  omega

/-! ## The channel loop -/

theorem forChannels_zero (body : Frame → Nat → Frame) (s : Frame) :
    forChannels 0 body s = s := rfl

theorem forChannels_succ (c : Nat) (body : Frame → Nat → Frame) (s : Frame) :
    forChannels (c + 1) body s = body (forChannels c body s) c := by
  simp [forChannels, List.range_succ, List.foldl_append]

theorem forChannels_induct (P : Nat → Frame → Prop) (c : Nat) (body : Frame → Nat → Frame)
    (s : Frame) (h0 : P 0 s) (hs : ∀ k t, k < c → P k t → P (k + 1) (body t k)) :
    P c (forChannels c body s) := by
  induction c with
  | zero => simpa [forChannels_zero] using h0
  | succ c ih =>
    rw [forChannels_succ]
    exact hs c _ (Nat.lt_succ_self c) (ih fun k t hk hp => hs k t (by omega) hp)

/-- Effect of the emit loop (lines 86-88). -/
theorem emit_fold (c : Nat) (ds : Int) (s : Frame) (hb : s.dst + c ≤ s.bitmap.length) :
    ∃ bm, forChannels c (emitChan ds) s = { s with bitmap := bm } ∧
      bm.length = s.bitmap.length ∧
      ∀ a, rd bm a = if s.dst ≤ a ∧ a < s.dst + c
        then toU8 (Int.tdiv (rdI s.sum (a - s.dst)) ds) else rd s.bitmap a := by
  have key : ∀ k, k ≤ c → ∃ bm, forChannels k (emitChan ds) s = { s with bitmap := bm } ∧
      bm.length = s.bitmap.length ∧
      ∀ a, rd bm a = if s.dst ≤ a ∧ a < s.dst + k
        then toU8 (Int.tdiv (rdI s.sum (a - s.dst)) ds) else rd s.bitmap a := by
    intro k
    induction k with
    | zero =>
      intro _
      refine ⟨s.bitmap, rfl, rfl, fun a => ?_⟩
      rw [if_neg (by omega)]
    | succ k ih =>
      intro hk
      obtain ⟨bm, he, hl, hr⟩ := ih (by omega)
      refine ⟨bm.set (s.dst + k) (toU8 (Int.tdiv (rdI s.sum k) ds)), ?_, ?_, fun a => ?_⟩
      · rw [forChannels_succ, he]; rfl
      · simp [hl]
      · rw [rd_set, hr a]
        by_cases h1 : s.dst + k = a
        · subst h1
          have h2 : s.dst + k < bm.length := by omega
          simp [h2]
        · have h3 : (s.dst ≤ a ∧ a < s.dst + (k + 1)) ↔ (s.dst ≤ a ∧ a < s.dst + k) := by omega
          simp only [h1, false_and, if_false, h3]
  exact key c (Nat.le_refl c)

/-- Effect of the slide loop (lines 95-106) on every channel. -/
theorem slide_fold (c : Nat) (s : Frame) (hc : c ≤ 4)
    (hst : s.stack_drop * c + c ≤ s.stack.length)
    (h1 : s.sum.length = 4) (h2 : s.sum_out.length = 4) (h3 : s.sum_in.length = 4) :
    ∃ st sm so si, forChannels c (slideChan c) s =
        { s with stack := st, sum := sm, sum_out := so, sum_in := si } ∧
      st.length = s.stack.length ∧ sm.length = 4 ∧ so.length = 4 ∧ si.length = 4 ∧
      (∀ slot j, j < c → rd st (slot * c + j) =
        if slot = s.stack_drop then rd s.bitmap (s.src + j) else rd s.stack (slot * c + j)) ∧
      (∀ j, j < c →
        rdI sm j = wrap32 (wrap32 (rdI s.sum j - rdI s.sum_out j) +
          wrap32 (rdI s.sum_in j + (rd s.bitmap (s.src + j) : Int))) ∧
        rdI so j = wrap32 (wrap32 (rdI s.sum_out j - (rd s.stack (s.stack_drop * c + j) : Int)) +
          ((if s.stack_i = s.stack_drop then rd s.bitmap (s.src + j)
            else rd s.stack (s.stack_i * c + j) : Nat) : Int)) ∧
        rdI si j = wrap32 (wrap32 (rdI s.sum_in j + (rd s.bitmap (s.src + j) : Int)) -
          ((if s.stack_i = s.stack_drop then rd s.bitmap (s.src + j)
            else rd s.stack (s.stack_i * c + j) : Nat) : Int))) := by
  have key : ∀ k, k ≤ c → ∃ st sm so si, forChannels k (slideChan c) s =
        { s with stack := st, sum := sm, sum_out := so, sum_in := si } ∧
      st.length = s.stack.length ∧ sm.length = 4 ∧ so.length = 4 ∧ si.length = 4 ∧
      (∀ slot j, j < c → rd st (slot * c + j) =
        if slot = s.stack_drop ∧ j < k then rd s.bitmap (s.src + j)
        else rd s.stack (slot * c + j)) ∧
      (∀ j, rdI sm j = if j < k then wrap32 (wrap32 (rdI s.sum j - rdI s.sum_out j) +
          wrap32 (rdI s.sum_in j + (rd s.bitmap (s.src + j) : Int))) else rdI s.sum j) ∧
      (∀ j, rdI so j = if j < k then
          wrap32 (wrap32 (rdI s.sum_out j - (rd s.stack (s.stack_drop * c + j) : Int)) +
          ((if s.stack_i = s.stack_drop then rd s.bitmap (s.src + j)
            else rd s.stack (s.stack_i * c + j) : Nat) : Int)) else rdI s.sum_out j) ∧
      (∀ j, rdI si j = if j < k then
          wrap32 (wrap32 (rdI s.sum_in j + (rd s.bitmap (s.src + j) : Int)) -
          ((if s.stack_i = s.stack_drop then rd s.bitmap (s.src + j)
            else rd s.stack (s.stack_i * c + j) : Nat) : Int)) else rdI s.sum_in j) := by
    intro k
    induction k with
    | zero =>
      intro _
      exact ⟨s.stack, s.sum, s.sum_out, s.sum_in, rfl, rfl, h1, h2, h3,
        fun slot j _ => by simp, fun j => by simp, fun j => by simp, fun j => by simp⟩
    | succ k ih =>
      intro hk
      have hkc : k < c := by omega
      obtain ⟨st, sm, so, si, he, l0, l1, l2, l3, hS, hsm, hso, hsi⟩ := ih (by omega)
      have hin : s.stack_drop * c + k < st.length := by omega
      have hr1 : rd (st.set (s.stack_drop * c + k) (rd s.bitmap (s.src + k)))
          (s.stack_i * c + k) = if s.stack_i = s.stack_drop then rd s.bitmap (s.src + k)
            else rd s.stack (s.stack_i * c + k) := by
        rw [rd_set, hS _ _ hkc]
        by_cases hh : s.stack_i = s.stack_drop
        · simp [hh, hin]
        · have : ¬ (s.stack_drop * c + k = s.stack_i * c + k) := by
            rw [slot_inj hkc hkc]; tauto
          simp [hh, this]
      have hr0 : rd st (s.stack_drop * c + k) = rd s.stack (s.stack_drop * c + k) := by
        rw [hS _ _ hkc]; simp
      refine ⟨st.set (s.stack_drop * c + k) (rd s.bitmap (s.src + k)),
        sm.set k (wrap32 (wrap32 (rdI sm k - rdI so k) +
          wrap32 (rdI si k + (rd s.bitmap (s.src + k) : Int)))),
        so.set k (wrap32 (wrap32 (rdI so k - (rd st (s.stack_drop * c + k) : Int)) +
          (rd (st.set (s.stack_drop * c + k) (rd s.bitmap (s.src + k)))
            (s.stack_i * c + k) : Int))),
        si.set k (wrap32 (wrap32 (rdI si k + (rd s.bitmap (s.src + k) : Int)) -
          (rd (st.set (s.stack_drop * c + k) (rd s.bitmap (s.src + k)))
            (s.stack_i * c + k) : Int))), ?_, ?_, ?_, ?_, ?_, ?_, ?_, ?_, ?_⟩
      · rw [forChannels_succ, he]; rfl
      · simp [l0]
      · simp [l1]
      · simp [l2]
      · simp [l3]
      · intro slot j hj
        rw [rd_set, hS _ _ hj]
        by_cases ha : s.stack_drop = slot ∧ k = j
        · obtain ⟨rfl, rfl⟩ := ha
          simp [hin]
        · have hne : ¬ (s.stack_drop * c + k = slot * c + j) := by
            rw [slot_inj hkc hj]; exact ha
          rw [if_neg (fun h => hne h.1)]
          by_cases hd : slot = s.stack_drop ∧ j < k
          · rw [if_pos hd, if_pos ⟨hd.1, by omega⟩]
          · have hd2 : ¬ (slot = s.stack_drop ∧ j < k + 1) := by
              intro x
              have : j ≠ k := fun e => ha ⟨x.1.symm, e.symm⟩
              exact hd ⟨x.1, by omega⟩
            rw [if_neg hd, if_neg hd2]
      · intro j
        rw [rdI_set, hsm j]
        by_cases hj : k = j
        · subst hj
          have : k < sm.length := by omega
          simp [this, hsm k, hso k, hsi k]
        · by_cases hj2 : j < k
          · simp [hj, hj2, Nat.lt_succ_of_lt hj2]
          · have : ¬ j < k + 1 := by omega
            simp [hj, hj2, this]
      · intro j
        rw [rdI_set, hso j]
        by_cases hj : k = j
        · subst hj
          have : k < so.length := by omega
          simp only [this, and_self, if_true, Nat.lt_succ_self, hso k, lt_irrefl, if_false,
            hr0, hr1]
        · by_cases hj2 : j < k
          · simp [hj, hj2, Nat.lt_succ_of_lt hj2]
          · have : ¬ j < k + 1 := by omega
            simp [hj, hj2, this]
      · intro j
        rw [rdI_set, hsi j]
        by_cases hj : k = j
        · subst hj
          have : k < si.length := by omega
          simp only [this, and_self, if_true, Nat.lt_succ_self, hsi k, lt_irrefl, if_false,
            hr1]
        · by_cases hj2 : j < k
          · simp [hj, hj2, Nat.lt_succ_of_lt hj2]
          · have : ¬ j < k + 1 := by omega
            simp [hj, hj2, this]
  obtain ⟨st, sm, so, si, he, l0, l1, l2, l3, hS, hsm, hso, hsi⟩ := key c (Nat.le_refl c)
  refine ⟨st, sm, so, si, he, l0, l1, l2, l3, ?_, ?_⟩
  · intro slot j hj
    rw [hS slot j hj]
    simp [hj]
  · intro j hj
    refine ⟨?_, ?_, ?_⟩
    · rw [hsm j, if_pos hj]
    · rw [hso j, if_pos hj]
    · rw [hsi j, if_pos hj]

/-- Effect of the left priming loop body (lines 49-54) on every channel. -/
theorem primeLeft_fold (c i : Nat) (s : Frame) (hc : c ≤ 4)
    (hst : i * c + c ≤ s.stack.length)
    (h1 : s.sum.length = 4) (h2 : s.sum_out.length = 4) :
    ∃ st sm so, forChannels c (primeLeftChan c i) s =
        { s with stack := st, sum := sm, sum_out := so } ∧
      st.length = s.stack.length ∧ sm.length = 4 ∧ so.length = 4 ∧
      (∀ slot j, j < c → rd st (slot * c + j) =
        if slot = i then rd s.bitmap (s.src + j) else rd s.stack (slot * c + j)) ∧
      (∀ j, j < c →
        rdI sm j = wrap32 (rdI s.sum j +
          wrap32 ((rd s.bitmap (s.src + j) : Int) * ((i : Int) + 1))) ∧
        rdI so j = wrap32 (rdI s.sum_out j + (rd s.bitmap (s.src + j) : Int))) := by
  have key : ∀ k, k ≤ c → ∃ st sm so, forChannels k (primeLeftChan c i) s =
        { s with stack := st, sum := sm, sum_out := so } ∧
      st.length = s.stack.length ∧ sm.length = 4 ∧ so.length = 4 ∧
      (∀ slot j, j < c → rd st (slot * c + j) =
        if slot = i ∧ j < k then rd s.bitmap (s.src + j) else rd s.stack (slot * c + j)) ∧
      (∀ j, rdI sm j = if j < k then wrap32 (rdI s.sum j +
          wrap32 ((rd s.bitmap (s.src + j) : Int) * ((i : Int) + 1))) else rdI s.sum j) ∧
      (∀ j, rdI so j = if j < k then
          wrap32 (rdI s.sum_out j + (rd s.bitmap (s.src + j) : Int)) else rdI s.sum_out j) := by
    intro k
    induction k with
    | zero =>
      intro _
      exact ⟨s.stack, s.sum, s.sum_out, rfl, rfl, h1, h2,
        fun slot j _ => by simp, fun j => by simp, fun j => by simp⟩
    | succ k ih =>
      intro hk
      have hkc : k < c := by omega
      obtain ⟨st, sm, so, he, l0, l1, l2, hS, hsm, hso⟩ := ih (by omega)
      have hin : i * c + k < st.length := by omega
      refine ⟨st.set (i * c + k) (rd s.bitmap (s.src + k)),
        sm.set k (wrap32 (rdI sm k + wrap32 ((rd s.bitmap (s.src + k) : Int) * ((i : Int) + 1)))),
        so.set k (wrap32 (rdI so k + (rd s.bitmap (s.src + k) : Int))),
        ?_, ?_, ?_, ?_, ?_, ?_, ?_⟩
      · rw [forChannels_succ, he]; rfl
      · simp [l0]
      · simp [l1]
      · simp [l2]
      · intro slot j hj
        rw [rd_set, hS _ _ hj]
        by_cases ha : i = slot ∧ k = j
        · obtain ⟨rfl, rfl⟩ := ha
          simp [hin]
        · have hne : ¬ (i * c + k = slot * c + j) := by
            rw [slot_inj hkc hj]; exact ha
          rw [if_neg (fun h => hne h.1)]
          by_cases hd : slot = i ∧ j < k
          · rw [if_pos hd, if_pos ⟨hd.1, by omega⟩]
          · have hd2 : ¬ (slot = i ∧ j < k + 1) := by
              intro x
              have : j ≠ k := fun e => ha ⟨x.1.symm, e.symm⟩
              exact hd ⟨x.1, by omega⟩
            rw [if_neg hd, if_neg hd2]
      · intro j
        rw [rdI_set, hsm j]
        by_cases hj : k = j
        · subst hj
          have : k < sm.length := by omega
          simp [this, hsm k]
        · by_cases hj2 : j < k
          · simp [hj, hj2, Nat.lt_succ_of_lt hj2]
          · have : ¬ j < k + 1 := by omega
            simp [hj, hj2, this]
      · intro j
        rw [rdI_set, hso j]
        by_cases hj : k = j
        · subst hj
          have : k < so.length := by omega
          simp [this, hso k]
        · by_cases hj2 : j < k
          · simp [hj, hj2, Nat.lt_succ_of_lt hj2]
          · have : ¬ j < k + 1 := by omega
            simp [hj, hj2, this]
  obtain ⟨st, sm, so, he, l0, l1, l2, hS, hsm, hso⟩ := key c (Nat.le_refl c)
  refine ⟨st, sm, so, he, l0, l1, l2, ?_, ?_⟩
  · intro slot j hj
    rw [hS slot j hj]
    simp [hj]
  · intro j hj
    exact ⟨by rw [hsm j, if_pos hj], by rw [hso j, if_pos hj]⟩

/-- Effect of the right priming loop body (lines 60-66) on every channel. -/
theorem primeRight_fold (c r i : Nat) (s : Frame) (hc0 : 0 < c) (hc : c ≤ 4)
    (hst : (i + r) * c + c ≤ s.stack.length)
    (h1 : s.sum.length = 4) (h3 : s.sum_in.length = 4) :
    ∃ st sm si, forChannels c (primeRightChan c r i) s =
        { s with stack := st, sum := sm, sum_in := si, stack_i := i + r } ∧
      st.length = s.stack.length ∧ sm.length = 4 ∧ si.length = 4 ∧
      (∀ slot j, j < c → rd st (slot * c + j) =
        if slot = i + r then rd s.bitmap (s.src + j) else rd s.stack (slot * c + j)) ∧
      (∀ j, j < c →
        rdI sm j = wrap32 (rdI s.sum j +
          wrap32 ((rd s.bitmap (s.src + j) : Int) * wrap32 ((r : Int) + 1 - (i : Int)))) ∧
        rdI si j = wrap32 (rdI s.sum_in j + (rd s.bitmap (s.src + j) : Int))) := by
  have key : ∀ k, k ≤ c → ∃ st sm si, forChannels k (primeRightChan c r i) s =
        { s with stack := st, sum := sm, sum_in := si,
                 stack_i := if k = 0 then s.stack_i else i + r } ∧
      st.length = s.stack.length ∧ sm.length = 4 ∧ si.length = 4 ∧
      (∀ slot j, j < c → rd st (slot * c + j) =
        if slot = i + r ∧ j < k then rd s.bitmap (s.src + j) else rd s.stack (slot * c + j)) ∧
      (∀ j, rdI sm j = if j < k then wrap32 (rdI s.sum j +
          wrap32 ((rd s.bitmap (s.src + j) : Int) * wrap32 ((r : Int) + 1 - (i : Int))))
          else rdI s.sum j) ∧
      (∀ j, rdI si j = if j < k then
          wrap32 (rdI s.sum_in j + (rd s.bitmap (s.src + j) : Int)) else rdI s.sum_in j) := by
    intro k
    induction k with
    | zero =>
      intro _
      exact ⟨s.stack, s.sum, s.sum_in, rfl, rfl, h1, h3,
        fun slot j _ => by simp, fun j => by simp, fun j => by simp⟩
    | succ k ih =>
      intro hk
      have hkc : k < c := by omega
      obtain ⟨st, sm, si, he, l0, l1, l3, hS, hsm, hsi⟩ := ih (by omega)
      have hin : (i + r) * c + k < st.length := by omega
      refine ⟨st.set ((i + r) * c + k) (rd s.bitmap (s.src + k)),
        sm.set k (wrap32 (rdI sm k +
          wrap32 ((rd s.bitmap (s.src + k) : Int) * wrap32 ((r : Int) + 1 - (i : Int))))),
        si.set k (wrap32 (rdI si k + (rd s.bitmap (s.src + k) : Int))),
        ?_, ?_, ?_, ?_, ?_, ?_, ?_⟩
      · rw [forChannels_succ, he]; rfl
      · simp [l0]
      · simp [l1]
      · simp [l3]
      · intro slot j hj
        rw [rd_set, hS _ _ hj]
        by_cases ha : i + r = slot ∧ k = j
        · obtain ⟨rfl, rfl⟩ := ha
          simp [hin]
        · have hne : ¬ ((i + r) * c + k = slot * c + j) := by
            rw [slot_inj hkc hj]; exact ha
          rw [if_neg (fun h => hne h.1)]
          by_cases hd : slot = i + r ∧ j < k
          · rw [if_pos hd, if_pos ⟨hd.1, by omega⟩]
          · have hd2 : ¬ (slot = i + r ∧ j < k + 1) := by
              intro x
              have : j ≠ k := fun e => ha ⟨x.1.symm, e.symm⟩
              exact hd ⟨x.1, by omega⟩
            rw [if_neg hd, if_neg hd2]
      · intro j
        rw [rdI_set, hsm j]
        by_cases hj : k = j
        · subst hj
          have : k < sm.length := by omega
          simp [this, hsm k]
        · by_cases hj2 : j < k
          · simp [hj, hj2, Nat.lt_succ_of_lt hj2]
          · have : ¬ j < k + 1 := by omega
            simp [hj, hj2, this]
      · intro j
        rw [rdI_set, hsi j]
        by_cases hj : k = j
        · subst hj
          have : k < si.length := by omega
          simp [this, hsi k]
        · by_cases hj2 : j < k
          · simp [hj, hj2, Nat.lt_succ_of_lt hj2]
          · have : ¬ j < k + 1 := by omega
            simp [hj, hj2, this]
  obtain ⟨st, sm, si, he, l0, l1, l3, hS, hsm, hsi⟩ := key c (Nat.le_refl c)
  refine ⟨st, sm, si, ?_, l0, l1, l3, ?_, ?_⟩
  · rw [he, if_neg (by omega)]
  · intro slot j hj
    rw [hS slot j hj]
    simp [hj]
  · intro j hj
    exact ⟨by rw [hsm j, if_pos hj], by rw [hsi j, if_pos hj]⟩

/-! ## Window sums -/

theorem wrap32_wrap32 (a : Int) : wrap32 (wrap32 a) = wrap32 a := by
  unfold wrap32; omega

theorem wrap32_add_left (a b : Int) : wrap32 (wrap32 a + b) = wrap32 (a + b) := by
  unfold wrap32; omega

theorem wrap32_add_right (a b : Int) : wrap32 (a + wrap32 b) = wrap32 (a + b) := by
  unfold wrap32; omega

theorem wrap32_sub_left (a b : Int) : wrap32 (wrap32 a - b) = wrap32 (a - b) := by
  unfold wrap32; omega

theorem wrap32_sub_right (a b : Int) : wrap32 (a - wrap32 b) = wrap32 (a - b) := by
  unfold wrap32; omega

theorem wrap32_mul_right (a b : Int) : wrap32 (a * wrap32 b) = wrap32 (a * b) :=
  wrap32_congr (Int.ModEq.mul_left a (wrap32_modEq b))

theorem Wsum_shift (v : Nat → Int) (m y : Nat) :
    Wsum v m (y + 1) = Wsum v m y - v y + v (y + m) := by
  induction m with
  | zero => simp [Wsum]
  | succ m ih =>
    simp only [Wsum, ih]
    have : y + 1 + m = y + (m + 1) := by omega
    rw [this]; ring

theorem Asum_shift (v : Nat → Int) (m x : Nat) :
    Asum v m (x + 1) = Asum v m x - Wsum v m x + (m : Int) * v (x + m) := by
  induction m with
  | zero => simp [Asum, Wsum]
  | succ m ih =>
    simp only [Asum, Wsum, ih]
    have : x + 1 + m = x + (m + 1) := by omega
    rw [this]; push_cast; ring

theorem Bsum_shift (v : Nat → Int) (c : Int) (m y : Nat) :
    Bsum v c m (y + 1) =
      Bsum v c m y - c * v y + (c - (m : Int)) * v (y + m) + Wsum v m y - v y + v (y + m) := by
  induction m with
  | zero => simp [Bsum, Wsum]
  | succ m ih =>
    simp only [Bsum, Wsum, ih]
    have : y + 1 + m = y + (m + 1) := by omega
    rw [this]; push_cast; ring

theorem triSum_shift (v : Nat → Int) (r x : Nat) :
    triSum v r (x + 1) =
      triSum v r x - Wsum v (r + 1) x + Wsum v r (x + r + 1) + v (x + r + 1 + r) := by
  unfold triSum
  have h : x + 1 + r + 1 = (x + r + 1) + 1 := by omega
  rw [Asum_shift, h, Bsum_shift]
  have h2 : x + (r + 1) = x + r + 1 := by omega
  rw [h2]; push_cast; ring

/-! ## Line geometry -/

theorem pixAt_succ (base stride y : Nat) :
    pixAt base stride (y + 1) = pixAt base stride y + 4 * stride := by
  unfold pixAt; ring

theorem pixAt_lt (base : Nat) {stride a b : Nat} (hs : 1 ≤ stride) (h : a < b) :
    pixAt base stride a + 4 ≤ pixAt base stride b := by
  unfold pixAt
  have h1 : (a + 1) * stride ≤ b * stride := Nat.mul_le_mul_right stride h
  have h2 : (a + 1) * stride = a * stride + stride := by ring
  omega

theorem pixAt_inj {base stride a b : Nat} (hs : 1 ≤ stride) :
    pixAt base stride a = pixAt base stride b ↔ a = b := by
  constructor
  · intro h
    rcases Nat.lt_trichotomy a b with h1 | h1 | h1
    · have := pixAt_lt base hs h1; omega
    · exact h1
    · have := pixAt_lt base hs h1; omega
  · rintro rfl; rfl

theorem pixAt_le {base stride a b : Nat} (h : a ≤ b) :
    pixAt base stride a ≤ pixAt base stride b := by
  unfold pixAt
  have h1 : a * stride ≤ b * stride := Nat.mul_le_mul_right stride h
  omega

/-! ## The sweep invariant -/

theorem advanceSrc_eq {base stride n : Nat} (hs : 1 ≤ stride) (hn : 1 ≤ n) (s : Frame) (m : Nat)
    (h : s.src = pixAt base stride (min m (n - 1))) :
    advanceSrc stride (pixAt base stride (n - 1)) s =
      { s with src := pixAt base stride (min (m + 1) (n - 1)) } := by
  unfold advanceSrc
  rw [h]
  by_cases hm : m < n - 1
  · have h1 : min m (n - 1) = m := by omega
    have h2 : min (m + 1) (n - 1) = m + 1 := by omega
    have h3 : pixAt base stride m ≠ pixAt base stride (n - 1) := by
      rw [Ne, pixAt_inj hs]; omega
    rw [h1, h2, if_pos h3, pixAt_succ]
  · have h1 : min m (n - 1) = n - 1 := by omega
    have h2 : min (m + 1) (n - 1) = n - 1 := by omega
    rw [h1, h2, if_neg (by simp)]
    cases s
    simp only [Frame.mk.injEq, true_and, and_true] at *
    simp [h, h1]

theorem emit_inv {bm0 : List Nat} {base stride n r c L : Nat} {ds : Int} {x : Nat} {s : Frame}
    (hs : 1 ≤ stride) (hc : c ≤ 4) (hb : pixAt base stride (n - 1) + c ≤ bm0.length)
    (hx : x < n) (h : SweepInv bm0 base stride n r c L ds x s) :
    EmitInv bm0 base stride n r c L ds x
      (emitStep c stride (pixAt base stride (n - 1)) (r * 2 + 1) ds s) := by
  unfold emitStep
  rw [advanceSrc_eq hs (by omega) s (x + r) h.src_eq]
  have hdx : pixAt base stride x ≤ pixAt base stride (n - 1) := pixAt_le (by omega)
  obtain ⟨bm, he, hl, hr⟩ := emit_fold c ds
    { s with src := pixAt base stride (min (x + r + 1) (n - 1)),
             stack_i := if s.stack_i = r * 2 + 1 - 1 then 0 else s.stack_i + 1,
             stack_drop := if s.stack_drop = r * 2 + 1 - 1 then 0 else s.stack_drop + 1 }
    (by show s.dst + c ≤ s.bitmap.length
        rw [h.dst_eq, h.len_bm]; omega)
  simp only at he
  rw [he]
  simp only at hl hr
  refine ⟨rfl, h.dst_eq, ?_, ?_, by rw [hl, h.len_bm], h.len_st, h.len_sum, h.len_out, h.len_in,
    ?_, ?_, h.window, h.sums⟩
  · show (if s.stack_i = r * 2 + 1 - 1 then 0 else s.stack_i + 1) = _
    rw [h.si_eq]
    exact succ_mod_cases _ _ (by omega)
  · show (if s.stack_drop = r * 2 + 1 - 1 then 0 else s.stack_drop + 1) = _
    rw [h.sd_eq, succ_mod_cases _ _ (by omega)]
    have : r * 2 + x + 1 = x + (r * 2 + 1) := by omega
    rw [this, Nat.add_mod_right]
  · intro y j hy hj
    show rd bm _ = _
    rw [hr, h.dst_eq]
    by_cases hyx : y = x
    · subst hyx
      have h1 : pixAt base stride y ≤ pixAt base stride y + j ∧
          pixAt base stride y + j < pixAt base stride y + c := by omega
      rw [if_pos h1]
      have h2 : pixAt base stride y + j - pixAt base stride y = j := by omega
      rw [h2, (h.sums j hj).1]
    · have h0 : y < x := by omega
      have h1 := pixAt_lt base hs h0
      rw [if_neg (by omega)]
      exact h.written y j h0 hj
  · intro a ha
    show rd bm a = _
    rw [hr, h.dst_eq]
    by_cases hin : pixAt base stride x ≤ a ∧ a < pixAt base stride x + c
    · exact absurd (by omega) (ha x (a - pixAt base stride x) (by omega) (by omega))
    · rw [if_neg hin]
      exact h.frame a (fun y j hy hj => ha y j (by omega) hj)

theorem slide_inv {bm0 : List Nat} {base stride n r c L : Nat} {ds : Int} {x : Nat} {e : Frame}
    (hs : 1 ≤ stride) (hc : c ≤ 4) (hL : (r * 2 + 1) * c ≤ L) (hx : x + 1 < n)
    (h : EmitInv bm0 base stride n r c L ds x e) :
    SweepInv bm0 base stride n r c L ds (x + 1) (slideStep c stride e) := by
  unfold slideStep
  have hd : 0 < r * 2 + 1 := by omega
  have hdrop : e.stack_drop < r * 2 + 1 := by rw [h.sd_eq]; exact Nat.mod_lt _ hd
  have hst : e.stack_drop * c + c ≤ e.stack.length := by
    rw [h.len_st]
    have h1 : (e.stack_drop + 1) * c ≤ (r * 2 + 1) * c := Nat.mul_le_mul_right c hdrop
    have h2 : (e.stack_drop + 1) * c = e.stack_drop * c + c := by ring
    omega
  obtain ⟨st, sm, so, si, he, l0, l1, l2, l3, hS, hsum⟩ :=
    slide_fold c { e with dst := e.dst + 4 * stride } hc hst h.len_sum h.len_out h.len_in
  simp only at he l0 hS hsum
  rw [he]
  have hbyte : ∀ j, j < c →
      (rd e.bitmap (e.src + j) : Int) = winVal bm0 base stride n r j (x + r + 1 + r) := by
    intro j hj
    unfold winVal
    have h1 : x + r + 1 + r - r = x + r + 1 := by omega
    rw [h1, h.src_eq, h.frame]
    intro y j' hy hj'
    have h2 : y < min (x + r + 1) (n - 1) := by omega
    have := pixAt_lt base hs h2
    omega
  have hold : ∀ j, j < c →
      (rd e.stack (e.stack_drop * c + j) : Int) = winVal bm0 base stride n r j x := by
    intro j hj
    have := h.window 0 j hd hj
    rw [Nat.add_zero] at this
    rw [h.sd_eq, this]
  have hmid : ∀ j, j < c →
      ((if e.stack_i = e.stack_drop then rd e.bitmap (e.src + j)
        else rd e.stack (e.stack_i * c + j) : Nat) : Int) =
      winVal bm0 base stride n r j (x + r + 1) := by
    intro j hj
    by_cases hr0 : r = 0
    · subst hr0
      have : e.stack_i = e.stack_drop := by
        rw [h.si_eq, h.sd_eq]; simp [Nat.mod_one]
      rw [if_pos this, hbyte j hj]
    · have hne : e.stack_i ≠ e.stack_drop := by
        rw [h.si_eq, h.sd_eq]
        have : r + x + 1 = x + (r + 1) := by omega
        rw [this]
        exact mod_add_ne x (r + 1) _ (by omega) (by omega)
      rw [if_neg hne, h.si_eq]
      have := h.window (r + 1) j (by omega) hj
      have e1 : x + (r + 1) = r + x + 1 := by omega
      have e2 : x + (r + 1) = x + r + 1 := by omega
      rw [e1] at this
      rw [this, e1.symm, e2]
  refine ⟨?_, ?_, ?_, ?_, h.len_bm, by rw [l0, h.len_st], l1, l2, l3, ?_, ?_, ?_, ?_⟩
  · show e.src = _
    rw [h.src_eq]
    have : x + 1 + r = x + r + 1 := by omega
    rw [this]
  · show e.dst + 4 * stride = _
    rw [h.dst_eq, pixAt_succ]
  · show e.stack_i = _
    rw [h.si_eq]
    have : r + (x + 1) = r + x + 1 := by omega
    rw [this]
  · show e.stack_drop = _
    rw [h.sd_eq]
    have : r * 2 + (x + 1) = x + (r * 2 + 1) := by omega
    rw [this, Nat.add_mod_right]
  · intro y j hy hj
    exact h.written y j hy hj
  · intro a ha
    exact h.frame a ha
  · intro t j ht hj
    show (rd st _ : Int) = _
    rw [hS _ _ hj]
    by_cases htl : t = r * 2
    · subst htl
      have e1 : x + 1 + r * 2 = x + (r * 2 + 1) := by omega
      have e2 : (x + (r * 2 + 1)) % (r * 2 + 1) = e.stack_drop := by
        rw [Nat.add_mod_right, h.sd_eq]
      rw [e1, e2, if_pos rfl, hbyte j hj]
      have e3 : x + r + 1 + r = x + (r * 2 + 1) := by omega
      rw [e3]
    · have e1 : x + 1 + t = x + (t + 1) := by omega
      have hne : (x + (t + 1)) % (r * 2 + 1) ≠ e.stack_drop := by
        rw [h.sd_eq]
        exact mod_add_ne x (t + 1) _ (by omega) (by omega)
      rw [e1, if_neg hne]
      exact h.window (t + 1) j (by omega) hj
  · intro j hj
    obtain ⟨a1, a2, a3⟩ := hsum j hj
    obtain ⟨b1, b2, b3⟩ := h.sums j hj
    have hb := hbyte j hj
    have ho := hold j hj
    have hm := hmid j hj
    refine ⟨?_, ?_, ?_⟩
    · show rdI sm j = _
      rw [a1, b1, b2, b3, hb, triSum_shift]
      simp only [wrap32_add_left, wrap32_add_right, wrap32_sub_left, wrap32_sub_right]
      congr 1; ring
    · show rdI so j = _
      rw [a2, b2, ho, hm, Wsum_shift _ (r + 1) x]
      simp only [wrap32_add_left, wrap32_add_right, wrap32_sub_left, wrap32_sub_right]
      have : x + (r + 1) = x + r + 1 := by omega
      rw [this]
    · show rdI si j = _
      rw [a3, b3, hb, hm]
      have : x + 1 + r + 1 = (x + r + 1) + 1 := by omega
      rw [this, Wsum_shift _ r (x + r + 1)]
      simp only [wrap32_add_left, wrap32_add_right, wrap32_sub_left, wrap32_sub_right]
      congr 1; ring

theorem sweep_spec {bm0 : List Nat} {base stride n r c L : Nat} {ds : Int}
    (hs : 1 ≤ stride) (hc : c ≤ 4) (hL : (r * 2 + 1) * c ≤ L)
    (hb : pixAt base stride (n - 1) + c ≤ bm0.length) :
    ∀ (fuel x : Nat) (s : Frame), x < n → n - x ≤ fuel →
      SweepInv bm0 base stride n r c L ds x s →
      ∃ s', sweep c stride (pixAt base stride (n - 1)) (r * 2 + 1) ds fuel s = some s' ∧
        EmitInv bm0 base stride n r c L ds (n - 1) s' := by
  intro fuel
  induction fuel with
  | zero => intro x s hx hf _; omega
  | succ fuel ih =>
    intro x s hx hf h
    have he := emit_inv hs hc hb hx h
    unfold sweep
    simp only
    by_cases hlast : x = n - 1
    · subst hlast
      rw [if_pos he.dst_eq]
      exact ⟨_, rfl, he⟩
    · have hne : (emitStep c stride (pixAt base stride (n - 1)) (r * 2 + 1) ds s).dst ≠
          pixAt base stride (n - 1) := by
        rw [he.dst_eq, Ne, pixAt_inj hs]; exact hlast
      rw [if_neg hne]
      exact ih (x + 1) _ (by omega) (by omega) (slide_inv hs hc hL (by omega) he)

/-! ## The priming loops -/

theorem wrap32_add_mul_right (a b c : Int) : wrap32 (a + b * wrap32 c) = wrap32 (a + b * c) :=
  wrap32_congr (Int.ModEq.add_left a (Int.ModEq.mul_left b (wrap32_modEq c)))

theorem foldl_range_succ {α : Type} (f : α → Nat → α) (a : α) (m : Nat) :
    (List.range (m + 1)).foldl f a = f ((List.range m).foldl f a) m := by
  simp [List.range_succ, List.foldl_append]

theorem winVal_left (bm0 : List Nat) (base stride n r j m : Nat) (hm : m ≤ r) :
    winVal bm0 base stride n r j m = (rd bm0 (pixAt base stride 0 + j) : Int) := by
  unfold winVal
  have h1 : m - r = 0 := by omega
  rw [h1, Nat.zero_min]

theorem primeLeft_upto (bm0 : List Nat) (base stride n r : Nat) {c L : Nat} (hc : c ≤ 4)
    (hL : (r * 2 + 1) * c ≤ L) (s0 : Frame)
    (hbm : s0.bitmap = bm0) (hsrc : s0.src = pixAt base stride 0) (hst : s0.stack.length = L)
    (h1 : s0.sum.length = 4) (h2 : s0.sum_out.length = 4)
    (z1 : ∀ j, rdI s0.sum j = 0) (z2 : ∀ j, rdI s0.sum_out j = 0) :
    ∀ m, m ≤ r + 1 → ∃ st sm so,
    (List.range m).foldl (fun s i => forChannels c (primeLeftChan c i) s) s0 =
      { s0 with stack := st, sum := sm, sum_out := so } ∧
    st.length = L ∧ sm.length = 4 ∧ so.length = 4 ∧
    (∀ slot j, slot < m → j < c →
      (rd st (slot * c + j) : Int) = winVal bm0 base stride n r j slot) ∧
    (∀ j, j < c →
      rdI sm j = wrap32 (Asum (winVal bm0 base stride n r j) m 0) ∧
      rdI so j = wrap32 (Wsum (winVal bm0 base stride n r j) m 0)) := by
  intro m
  induction m with
  | zero =>
    intro _
    refine ⟨s0.stack, s0.sum, s0.sum_out, rfl, hst, h1, h2, ?_, ?_⟩
    · intro slot j hs _; omega
    · intro j _
      simp [Asum, Wsum, z1 j, z2 j, wrap32]
  | succ m ih =>
    intro hm
    obtain ⟨st, sm, so, he, l0, l1, l2, hS, hsum⟩ := ih (by omega)
    have hstk : m * c + c ≤ st.length := by
      rw [l0]
      have h3 : (m + 1) * c ≤ (r * 2 + 1) * c := Nat.mul_le_mul_right c (by omega)
      have h4 : (m + 1) * c = m * c + c := by ring
      omega
    obtain ⟨st', sm', so', he', l0', l1', l2', hS', hsum'⟩ :=
      primeLeft_fold c m { s0 with stack := st, sum := sm, sum_out := so } hc hstk l1 l2
    simp only at he' l0' hS' hsum'
    refine ⟨st', sm', so', ?_, by rw [l0', l0], l1', l2', ?_, ?_⟩
    · rw [foldl_range_succ, he, he']
    · intro slot j hs hj
      rw [hS' slot j hj]
      by_cases hsm : slot = m
      · rw [if_pos hsm, hbm, hsrc, winVal_left _ _ _ _ _ _ _ (by omega)]
      · rw [if_neg hsm]
        exact hS slot j (by omega) hj
    · intro j hj
      obtain ⟨a1, a2⟩ := hsum' j hj
      obtain ⟨b1, b2⟩ := hsum j hj
      have hv := winVal_left bm0 base stride n r j m (by omega)
      refine ⟨?_, ?_⟩
      · rw [a1, b1, hbm, hsrc]
        simp only [Asum, Nat.zero_add, hv, wrap32_add_left, wrap32_add_right]
        congr 1; ring
      · rw [a2, b2, hbm, hsrc]
        simp only [Wsum, Nat.zero_add, hv, wrap32_add_left, wrap32_add_right]

theorem primeLeft_spec (bm0 : List Nat) (base stride n r : Nat) {c L : Nat} (hc : c ≤ 4)
    (hL : (r * 2 + 1) * c ≤ L) (s0 : Frame)
    (hbm : s0.bitmap = bm0) (hsrc : s0.src = pixAt base stride 0) (hst : s0.stack.length = L)
    (h1 : s0.sum.length = 4) (h2 : s0.sum_out.length = 4)
    (z1 : ∀ j, rdI s0.sum j = 0) (z2 : ∀ j, rdI s0.sum_out j = 0) :
    ∃ st sm so, primeLeft c r s0 = { s0 with stack := st, sum := sm, sum_out := so } ∧
      st.length = L ∧ sm.length = 4 ∧ so.length = 4 ∧
      (∀ slot j, slot < r + 1 → j < c →
        (rd st (slot * c + j) : Int) = winVal bm0 base stride n r j slot) ∧
      (∀ j, j < c →
        rdI sm j = wrap32 (Asum (winVal bm0 base stride n r j) (r + 1) 0) ∧
        rdI so j = wrap32 (Wsum (winVal bm0 base stride n r j) (r + 1) 0)) := by
  have key := primeLeft_upto bm0 base stride n r hc hL s0 hbm hsrc hst h1 h2 z1 z2
  exact key (r + 1) (Nat.le_refl _)

theorem primeRight_upto (bm0 : List Nat) (base stride n r : Nat) {c L : Nat} (hs : 1 ≤ stride)
    (hn : 1 ≤ n) (hc0 : 0 < c) (hc : c ≤ 4) (hL : (r * 2 + 1) * c ≤ L) (t0 : Frame)
    (hbm : t0.bitmap = bm0) (hsrc : t0.src = pixAt base stride 0) (hst : t0.stack.length = L)
    (h1 : t0.sum.length = 4) (h3 : t0.sum_in.length = 4)
    (hS0 : ∀ slot j, slot < r + 1 → j < c →
        (rd t0.stack (slot * c + j) : Int) = winVal bm0 base stride n r j slot)
    (hsum0 : ∀ j, j < c →
        rdI t0.sum j = wrap32 (Asum (winVal bm0 base stride n r j) (r + 1) 0))
    (z3 : ∀ j, rdI t0.sum_in j = 0) :
    ∀ k, k ≤ r → ∃ st sm si sti,
    (List.range k).foldl (fun s k => forChannels c (primeRightChan c r (k + 1))
      (advanceSrc stride (pixAt base stride (n - 1)) s)) t0 =
      { t0 with stack := st, sum := sm, sum_in := si, stack_i := sti,
                src := pixAt base stride (min k (n - 1)) } ∧
    st.length = L ∧ sm.length = 4 ∧ si.length = 4 ∧
    (∀ slot j, slot < r + 1 + k → j < c →
      (rd st (slot * c + j) : Int) = winVal bm0 base stride n r j slot) ∧
    (∀ j, j < c →
      rdI sm j = wrap32 (Asum (winVal bm0 base stride n r j) (r + 1) 0 +
        Bsum (winVal bm0 base stride n r j) (r : Int) k (r + 1)) ∧
      rdI si j = wrap32 (Wsum (winVal bm0 base stride n r j) k (r + 1))) := by
  intro k
  induction k with
  | zero =>
    intro _
    refine ⟨t0.stack, t0.sum, t0.sum_in, t0.stack_i, ?_, hst, h1, h3, ?_, ?_⟩
    · simp only [List.range_zero, List.foldl_nil, Nat.zero_min]
      cases t0
      simp only [Frame.mk.injEq, true_and, and_true] at *
      exact hsrc
    · intro slot j hs hj
      exact hS0 slot j (by omega) hj
    · intro j hj
      simp [Bsum, Wsum, hsum0 j hj, z3 j, wrap32]
  | succ k ih =>
    intro hk
    obtain ⟨st, sm, si, sti, he, l0, l1, l3, hS, hsum⟩ := ih (by omega)
    have hadv := advanceSrc_eq hs hn
      { t0 with stack := st, sum := sm, sum_in := si, stack_i := sti,
                src := pixAt base stride (min k (n - 1)) } k rfl
    simp only at hadv
    have hstk : (k + 1 + r) * c + c ≤ st.length := by
      rw [l0]
      have h5 : (k + 1 + r + 1) * c ≤ (r * 2 + 1) * c := Nat.mul_le_mul_right c (by omega)
      have h4 : (k + 1 + r + 1) * c = (k + 1 + r) * c + c := by ring
      omega
    obtain ⟨st', sm', si', he', l0', l1', l3', hS', hsum'⟩ :=
      primeRight_fold c r (k + 1)
        { t0 with stack := st, sum := sm, sum_in := si, stack_i := sti,
                  src := pixAt base stride (min (k + 1) (n - 1)) } hc0 hc hstk l1 l3
    simp only at he' l0' hS' hsum'
    have hv : ∀ j, (rd t0.bitmap (pixAt base stride (min (k + 1) (n - 1)) + j) : Int) =
        winVal bm0 base stride n r j (r + 1 + k) := by
      intro j
      unfold winVal
      have : r + 1 + k - r = k + 1 := by omega
      rw [this, hbm]
    refine ⟨st', sm', si', k + 1 + r, ?_, by rw [l0', l0], l1', l3', ?_, ?_⟩
    · rw [foldl_range_succ, he, hadv, he']
    · intro slot j hs hj
      rw [hS' slot j hj]
      by_cases hsm : slot = k + 1 + r
      · rw [if_pos hsm, hv j, hsm]
        have : k + 1 + r = r + 1 + k := by omega
        rw [this]
      · rw [if_neg hsm]
        exact hS slot j (by omega) hj
    · intro j hj
      obtain ⟨a1, a2⟩ := hsum' j hj
      obtain ⟨b1, b2⟩ := hsum j hj
      refine ⟨?_, ?_⟩
      · rw [a1, b1, hv j, wrap32_add_right, wrap32_add_mul_right, wrap32_add_left]
        simp only [Bsum]
        congr 1; push_cast; ring
      · rw [a2, b2, hv j, wrap32_add_left]
        simp only [Wsum]

theorem primeRight_spec (bm0 : List Nat) (base stride n r : Nat) {c L : Nat} (hs : 1 ≤ stride)
    (hn : 1 ≤ n) (hc0 : 0 < c) (hc : c ≤ 4) (hL : (r * 2 + 1) * c ≤ L) (t0 : Frame)
    (hbm : t0.bitmap = bm0) (hsrc : t0.src = pixAt base stride 0) (hst : t0.stack.length = L)
    (h1 : t0.sum.length = 4) (h3 : t0.sum_in.length = 4)
    (hS0 : ∀ slot j, slot < r + 1 → j < c →
        (rd t0.stack (slot * c + j) : Int) = winVal bm0 base stride n r j slot)
    (hsum0 : ∀ j, j < c →
        rdI t0.sum j = wrap32 (Asum (winVal bm0 base stride n r j) (r + 1) 0))
    (z3 : ∀ j, rdI t0.sum_in j = 0) :
    ∃ st sm si sti, primeRight c r stride (pixAt base stride (n - 1)) t0 =
        { t0 with stack := st, sum := sm, sum_in := si, stack_i := sti,
                  src := pixAt base stride (min r (n - 1)) } ∧
      st.length = L ∧ sm.length = 4 ∧ si.length = 4 ∧
      (∀ slot j, slot < r * 2 + 1 → j < c →
        (rd st (slot * c + j) : Int) = winVal bm0 base stride n r j slot) ∧
      (∀ j, j < c →
        rdI sm j = wrap32 (triSum (winVal bm0 base stride n r j) r 0) ∧
        rdI si j = wrap32 (Wsum (winVal bm0 base stride n r j) r (r + 1))) := by
  have key := primeRight_upto bm0 base stride n r hs hn hc0 hc hL t0 hbm hsrc hst h1 h3 hS0 hsum0 z3
  obtain ⟨st, sm, si, sti, he, l0, l1, l3, hS, hsum⟩ := key r (Nat.le_refl _)
  refine ⟨st, sm, si, sti, he, l0, l1, l3, ?_, ?_⟩
  · intro slot j hs hj
    exact hS slot j (by omega) hj
  · intro j hj
    obtain ⟨b1, b2⟩ := hsum j hj
    refine ⟨?_, b2⟩
    rw [b1]
    unfold triSum
    simp only [Nat.zero_add]

/-! ## `blur_line`: functional description -/

theorem blur_line_unfold (fuel : Nat) (bm : List Nat) (w h img_stride r : Nat) (blurAlpha : Bool)
    (line_idx : Nat) (horizontal : Bool) (st : List Nat) :
    blur_line fuel bm w h img_stride r blurAlpha line_idx horizontal st =
      (sweep (chans blurAlpha) (lineStride img_stride horizontal)
        (pixAt (lineBase img_stride line_idx horizontal) (lineStride img_stride horizontal)
          (lineLen w h horizontal - 1)) (r * 2 + 1) (divSum r) fuel
        { primeRight (chans blurAlpha) r (lineStride img_stride horizontal)
            (pixAt (lineBase img_stride line_idx horizontal) (lineStride img_stride horizontal)
              (lineLen w h horizontal - 1))
            (primeLeft (chans blurAlpha) r
              { bitmap := bm, stack := st
                sum := [0, 0, 0, 0], sum_out := [0, 0, 0, 0], sum_in := [0, 0, 0, 0]
                src := lineBase img_stride line_idx horizontal
                dst := lineBase img_stride line_idx horizontal
                stack_i := 0, stack_drop := 0 })
          with stack_i := r, stack_drop := r * 2 + 1 - 1 }).map
        (fun s => (s.bitmap, s.stack)) := by
  cases horizontal <;> rfl

theorem rdI_zeros (j : Nat) : rdI [0, 0, 0, 0] j = 0 := by
  unfold rdI
  match j with
  | 0 => rfl
  | 1 => rfl
  | 2 => rfl
  | 3 => rfl
  | _ + 4 => rfl

theorem chans_pos (b : Bool) : 0 < chans b := by cases b <;> decide

theorem chans_le (b : Bool) : chans b ≤ 4 := by cases b <;> decide

/-- Functional description of one `blur_line` call on a line that lies inside the buffer. -/
theorem blur_line_spec (fuel : Nat) (bm : List Nat) (w h img_stride r : Nat) (blurAlpha : Bool)
    (line_idx : Nat) (horizontal : Bool) (st : List Nat)
    (hn : 1 ≤ lineLen w h horizontal) (hs : 1 ≤ lineStride img_stride horizontal)
    (hb : pixAt (lineBase img_stride line_idx horizontal) (lineStride img_stride horizontal)
      (lineLen w h horizontal - 1) + chans blurAlpha ≤ bm.length)
    (hL : (r * 2 + 1) * chans blurAlpha ≤ st.length) (hf : lineLen w h horizontal ≤ fuel) :
    ∃ bm' st', blur_line fuel bm w h img_stride r blurAlpha line_idx horizontal st =
        some (bm', st') ∧
      bm'.length = bm.length ∧ st'.length = st.length ∧
      (∀ y j, y < lineLen w h horizontal → j < chans blurAlpha →
        rd bm' (pixAt (lineBase img_stride line_idx horizontal)
          (lineStride img_stride horizontal) y + j) =
        outByte bm (lineBase img_stride line_idx horizontal)
          (lineStride img_stride horizontal) (lineLen w h horizontal) r j y) ∧
      (∀ a, (∀ y j, y < lineLen w h horizontal → j < chans blurAlpha →
        a ≠ pixAt (lineBase img_stride line_idx horizontal)
          (lineStride img_stride horizontal) y + j) → rd bm' a = rd bm a) := by
  rw [blur_line_unfold]
  generalize lineLen w h horizontal = n at *
  generalize lineStride img_stride horizontal = stride at *
  generalize lineBase img_stride line_idx horizontal = base at *
  generalize hcdef : chans blurAlpha = c at *
  have hc0 : 0 < c := hcdef ▸ chans_pos blurAlpha
  have hc : c ≤ 4 := hcdef ▸ chans_le blurAlpha
  have hp0 : pixAt base stride 0 = base := by simp [pixAt]
  obtain ⟨st1, sm1, so1, e1, l0, l1, l2, hS1, hsum1⟩ :=
    primeLeft_spec bm base stride n r hc hL
      { bitmap := bm, stack := st
        sum := [0, 0, 0, 0], sum_out := [0, 0, 0, 0], sum_in := [0, 0, 0, 0]
        src := base, dst := base, stack_i := 0, stack_drop := 0 }
      rfl hp0.symm rfl rfl rfl rdI_zeros rdI_zeros
  rw [e1]
  simp only
  obtain ⟨st2, sm2, si2, sti, e2, m0, m1, m3, hS2, hsum2⟩ :=
    primeRight_spec bm base stride n r
      hs hn hc0 hc hL
      { bitmap := bm, stack := st1
        sum := sm1, sum_out := so1, sum_in := [0, 0, 0, 0]
        src := base, dst := base, stack_i := 0, stack_drop := 0 }
      rfl hp0.symm l0 l1 rfl hS1 (fun j hj => (hsum1 j hj).1) rdI_zeros
  rw [e2]
  simp only
  have hinv : SweepInv bm base stride n r c st.length (divSum r) 0
      { bitmap := bm, stack := st2, sum := sm2, sum_out := so1, sum_in := si2
        src := pixAt base stride (min r (n - 1)), dst := base
        stack_i := r, stack_drop := r * 2 + 1 - 1 } := by
    refine ⟨?_, hp0.symm, ?_, ?_, rfl, m0, m1, l2, m3, ?_, ?_, ?_, ?_⟩
    · simp
    · show r = (r + 0) % (r * 2 + 1)
      rw [Nat.add_zero, Nat.mod_eq_of_lt (by omega)]
    · show r * 2 + 1 - 1 = (r * 2 + 0) % (r * 2 + 1)
      rw [Nat.add_zero, Nat.mod_eq_of_lt (by omega)]; omega
    · intro y j hy _; omega
    · intro a _; rfl
    · intro t j ht hj
      show (rd st2 _ : Int) = _
      rw [Nat.zero_add, Nat.mod_eq_of_lt ht]
      exact hS2 t j ht hj
    · intro j hj
      refine ⟨(hsum2 j hj).1, ?_, ?_⟩
      · exact (hsum1 j hj).2
      · show rdI si2 j = _
        rw [(hsum2 j hj).2]
        simp only [Nat.zero_add]
  obtain ⟨s', hsw, hfin⟩ := sweep_spec hs hc hL hb fuel 0 _ (by omega) (by omega) hinv
  rw [hsw]
  refine ⟨s'.bitmap, s'.stack, rfl, hfin.len_bm, hfin.len_st, ?_, ?_⟩
  · intro y j hy hj
    exact hfin.written y j (by omega) hj
  · intro a ha
    exact hfin.frame a (fun y j hy hj => ha y j (by omega) hj)

/-! ## Lines of a pass -/

/-- Explicit form of a line address. -/
theorem lineAddr_eq (stride : Nat) (hz : Bool) (i y j : Nat) :
    lineAddr stride hz i y j =
      if hz then stride * i + 4 * y + j else 4 * i + 4 * (y * (stride / 4)) + j := by
  unfold lineAddr pixAt lineBase lineStride
  cases hz <;> simp

theorem Asum_eq_sum (v : Nat → Int) (m x : Nat) :
    Asum v m x = ((List.range m).map (fun t : Nat => ((t : Int) + 1) * v (x + t))).sum := by
  induction m with
  | zero => simp [Asum]
  | succ m ih => rw [List.sum_range_succ, Asum, ih]

theorem Bsum_eq_sum (v : Nat → Int) (c : Int) (m y : Nat) :
    Bsum v c m y = ((List.range m).map (fun t : Nat => (c - (t : Int)) * v (y + t))).sum := by
  induction m with
  | zero => simp [Bsum]
  | succ m ih => rw [List.sum_range_succ, Bsum, ih]

theorem sum_range_add (f : Nat → Int) (a b : Nat) :
    ((List.range (a + b)).map f).sum =
      ((List.range a).map f).sum + ((List.range b).map (fun i => f (a + i))).sum := by
  induction b with
  | zero => simp
  | succ b ih =>
    rw [← Nat.add_assoc, List.sum_range_succ, List.sum_range_succ, ih]; ring

theorem sum_range_congr (f g : Nat → Int) (m : Nat) (h : ∀ t, t < m → f t = g t) :
    ((List.range m).map f).sum = ((List.range m).map g).sum := by
  induction m with
  | zero => simp
  | succ m ih =>
    rw [List.sum_range_succ, List.sum_range_succ, ih (fun t ht => h t (by omega)),
      h m (by omega)]

/-- The triangular sum written with the weights `r + 1 - |t - r|`. -/
theorem triSum_eq_sum (v : Nat → Int) (r x : Nat) :
    triSum v r x = ((List.range (2 * r + 1)).map (fun t : Nat =>
      ((r : Int) + 1 - |(t : Int) - (r : Int)|) * v (x + t))).sum := by
  have h2 : 2 * r + 1 = (r + 1) + r := by omega
  rw [h2, sum_range_add]
  unfold triSum
  rw [Asum_eq_sum, Bsum_eq_sum]
  congr 1
  · apply sum_range_congr
    intro t ht
    have : |(t : Int) - (r : Int)| = (r : Int) - t := by
      rw [abs_of_nonpos (by omega)]; ring
    rw [this]; congr 1; ring
  · apply sum_range_congr
    intro t ht
    have : |((r + 1 + t : Nat) : Int) - (r : Int)| = (t : Int) + 1 := by
      rw [abs_of_nonneg (by push_cast; omega)]; push_cast; ring
    rw [this]
    have e : x + (r + 1 + t) = x + r + 1 + t := by omega
    rw [e]; congr 1; ring

theorem clamp_toNat (x t r n : Nat) (hn : 1 ≤ n) :
    (clamp ((x : Int) + ((t : Int) - (r : Int))) 0 ((n : Int) - 1)).toNat =
      min (x + t - r) (n - 1) := by
  unfold clamp
  split
  · omega
  · split <;> omega

/-- The code's exact window sum, divided, is the claim's triangular average. -/
theorem triSum_div_eq (bm : List Nat) (base stride n r j x : Nat) (hn : 1 ≤ n) :
    triSum (winVal bm base stride n r j) r x / (((r : Int) + 1) ^ 2) =
      triangularAverage (fun y => rd bm (pixAt base stride y + j)) n r x := by
  unfold triangularAverage
  rw [triSum_eq_sum]
  congr 2
  apply List.map_congr_left
  intro t _
  simp only [winVal, clamp_toNat x t r n hn]

theorem Asum_bounds (v : Nat → Int) (K : Int) (h : ∀ a, 0 ≤ v a ∧ v a ≤ K) (m x : Nat) :
    0 ≤ Asum v m x ∧ 2 * Asum v m x ≤ K * m * (m + 1) := by
  induction m with
  | zero => simp [Asum]
  | succ m ih =>
    obtain ⟨h0, h1⟩ := h (x + m)
    have hm : (0 : Int) ≤ (m : Int) + 1 := by omega
    have e1 : 0 ≤ ((m : Int) + 1) * v (x + m) := mul_nonneg hm h0
    have e2 : ((m : Int) + 1) * v (x + m) ≤ ((m : Int) + 1) * K :=
      mul_le_mul_of_nonneg_left h1 hm
    simp only [Asum]
    push_cast
    constructor
    · linarith [ih.1]
    · nlinarith [ih.2]

theorem Bsum_bounds (v : Nat → Int) (K : Int) (h : ∀ a, 0 ≤ v a ∧ v a ≤ K) (c m y : Nat)
    (hm : m ≤ c) :
    0 ≤ Bsum v (c : Int) m y ∧ 2 * Bsum v (c : Int) m y ≤ K * m * (2 * c - m + 1) := by
  induction m with
  | zero => simp [Bsum]
  | succ m ih =>
    obtain ⟨h0, h1⟩ := h (y + m)
    have hc : (0 : Int) ≤ (c : Int) - m := by omega
    have e1 : 0 ≤ ((c : Int) - m) * v (y + m) := mul_nonneg hc h0
    have e2 : ((c : Int) - m) * v (y + m) ≤ ((c : Int) - m) * K :=
      mul_le_mul_of_nonneg_left h1 hc
    obtain ⟨i0, i1⟩ := ih (by omega)
    simp only [Bsum]
    push_cast
    constructor
    · linarith
    · nlinarith

theorem triSum_bounds (v : Nat → Int) (K : Int) (h : ∀ a, 0 ≤ v a ∧ v a ≤ K) (r x : Nat) :
    0 ≤ triSum v r x ∧ triSum v r x ≤ K * ((r : Int) + 1) ^ 2 := by
  obtain ⟨a0, a1⟩ := Asum_bounds v K h (r + 1) x
  obtain ⟨b0, b1⟩ := Bsum_bounds v K h r r (x + r + 1) (Nat.le_refl r)
  unfold triSum
  push_cast at a1
  constructor
  · linarith
  · nlinarith

theorem Asum_const (k : Int) (m x : Nat) :
    2 * Asum (fun _ => k) m x = k * m * (m + 1) := by
  induction m with
  | zero => simp [Asum]
  | succ m ih => simp only [Asum]; push_cast; linarith

theorem Bsum_const (k c : Int) (m y : Nat) :
    2 * Bsum (fun _ => k) c m y = k * m * (2 * c - m + 1) := by
  induction m with
  | zero => simp [Bsum]
  | succ m ih => simp only [Bsum]; push_cast; linarith

theorem triSum_const (k : Int) (r x : Nat) :
    triSum (fun _ => k) r x = k * ((r : Int) + 1) ^ 2 := by
  have a := Asum_const k (r + 1) x
  have b := Bsum_const k (r : Int) r (x + r + 1)
  unfold triSum
  push_cast at a
  linarith

/-! ## The emitted byte when no accumulator overflows -/

theorem rd_lt {bm : List Nat} (hb : Bytes bm) (a : Nat) : rd bm a < 256 := by
  unfold rd
  rw [List.getD_eq_getElem?_getD]
  by_cases h : a < bm.length
  · rw [List.getElem?_eq_getElem h]
    exact hb _ (List.getElem_mem h)
  · rw [List.getElem?_eq_none (by omega)]
    decide

theorem winVal_range {bm : List Nat} (hb : Bytes bm) (base stride n r j a : Nat) :
    0 ≤ winVal bm base stride n r j a ∧ winVal bm base stride n r j a ≤ 255 := by
  unfold winVal
  have := rd_lt hb (pixAt base stride (min (a - r) (n - 1)) + j)
  omega

theorem divSum_eq {r : Nat} (hr : r ≤ 2900) : divSum r = ((r : Int) + 1) ^ 2 := by
  unfold divSum
  have h1 : wrap32 ((r : Int) + 1) = (r : Int) + 1 := wrap32_id (by omega) (by omega)
  have h2 : ((r : Int) + 1) * ((r : Int) + 1) ≤ 2901 * 2901 :=
    mul_le_mul (by omega) (by omega) (by omega) (by omega)
  have h3 : (0 : Int) ≤ ((r : Int) + 1) * ((r : Int) + 1) := mul_nonneg (by omega) (by omega)
  rw [h1, wrap32_id (by omega) (by omega)]
  ring

theorem sq_bound {r : Nat} (hr : r ≤ 2900) :
    (0 : Int) < ((r : Int) + 1) ^ 2 ∧ ((r : Int) + 1) ^ 2 ≤ 8415801 := by
  have h2 : ((r : Int) + 1) * ((r : Int) + 1) ≤ 2901 * 2901 :=
    mul_le_mul (by omega) (by omega) (by omega) (by omega)
  have h3 : (0 : Int) < ((r : Int) + 1) * ((r : Int) + 1) := mul_pos (by omega) (by omega)
  rw [pow_two]
  constructor
  · exact h3
  · omega

/-- Below the overflow threshold the emitted byte is the exact quotient. -/
theorem outByte_exact {bm : List Nat} (hb : Bytes bm) (base stride n j x : Nat) {r : Nat}
    (hr : r ≤ 2900) :
    (outByte bm base stride n r j x : Int) =
      triSum (winVal bm base stride n r j) r x / (((r : Int) + 1) ^ 2) := by
  obtain ⟨s0, s1⟩ := triSum_bounds (winVal bm base stride n r j) 255
    (winVal_range hb base stride n r j) r x
  obtain ⟨d0, d1⟩ := sq_bound hr
  unfold outByte
  rw [divSum_eq hr, wrap32_id (by omega) (by omega), Int.tdiv_eq_ediv s0 (le_of_lt d0)]
  have q0 : 0 ≤ triSum (winVal bm base stride n r j) r x / (((r : Int) + 1) ^ 2) :=
    Int.ediv_nonneg s0 (le_of_lt d0)
  have q1 : triSum (winVal bm base stride n r j) r x / (((r : Int) + 1) ^ 2) ≤ 255 :=
    Int.ediv_le_of_le_mul d0 s1
  unfold toU8
  omega

/-! ## C1: the triangular average -/

/-- C1 (amended): for every line of length `n ≥ 1` inside the buffer, every radius
`0 ≤ r ≤ 2900`, every position `x < n` and every blurred channel `j`, `blur_line` returns and
the byte it leaves at position `x` is the floor of the edge-replicated triangular weighted
sum of the line's content before the call, divided by `(r+1)^2`. -/
theorem blur_line_triangular_average (fuel : Nat) (bm : List Nat) (w h img_stride r : Nat)
    (blurAlpha : Bool) (line_idx : Nat) (hz : Bool) (st : List Nat)
    (hn : 1 ≤ lineLen w h hz) (hs : 1 ≤ lineStride img_stride hz)
    (hin : lineAddr img_stride hz line_idx (lineLen w h hz - 1) (chans blurAlpha) ≤ bm.length)
    (hb : Bytes bm) (hL : (r * 2 + 1) * chans blurAlpha ≤ st.length)
    (hf : lineLen w h hz ≤ fuel) (hr : r ≤ 2900) :
    ∃ bm' st', blur_line fuel bm w h img_stride r blurAlpha line_idx hz st = some (bm', st') ∧
      ∀ x j, x < lineLen w h hz → j < chans blurAlpha →
        (rd bm' (lineAddr img_stride hz line_idx x j) : Int) =
          triangularAverage (fun y => rd bm (lineAddr img_stride hz line_idx y j))
            (lineLen w h hz) r x := by
  obtain ⟨bm', st', e, _, _, hw, _⟩ :=
    blur_line_spec fuel bm w h img_stride r blurAlpha line_idx hz st hn hs hin hL hf
  refine ⟨bm', st', e, fun x j hx hj => ?_⟩
  show (rd bm' (pixAt _ _ x + j) : Int) = _
  rw [hw x j hx hj, outByte_exact hb _ _ _ _ _ hr, triSum_div_eq _ _ _ _ _ _ _ hn]
  rfl

/-- Instance of C1 (amended): a row of five pixels, radius 1. -/
theorem blur_line_triangular_average_witness :
    (1 ≤ lineLen 5 1 true ∧ 1 ≤ lineStride 20 true ∧
      lineAddr 20 true 0 (lineLen 5 1 true - 1) (chans false) ≤
        [0, 0, 0, 255, 0, 0, 0, 255, 0, 0, 0, 255, 0, 0, 0, 255, 255, 255, 255, 255].length ∧
      Bytes [0, 0, 0, 255, 0, 0, 0, 255, 0, 0, 0, 255, 0, 0, 0, 255, 255, 255, 255, 255] ∧
      (1 * 2 + 1) * chans false ≤ (List.replicate 9 0).length ∧
      lineLen 5 1 true ≤ 5 ∧ 1 ≤ 2900) ∧
    ∃ bm' st', blur_line 5
        [0, 0, 0, 255, 0, 0, 0, 255, 0, 0, 0, 255, 0, 0, 0, 255, 255, 255, 255, 255]
        5 1 20 1 false 0 true (List.replicate 9 0) = some (bm', st') ∧
      ∀ x j, x < lineLen 5 1 true → j < chans false →
        (rd bm' (lineAddr 20 true 0 x j) : Int) =
          triangularAverage (fun y => rd
            [0, 0, 0, 255, 0, 0, 0, 255, 0, 0, 0, 255, 0, 0, 0, 255, 255, 255, 255, 255]
            (lineAddr 20 true 0 y j)) (lineLen 5 1 true) 1 x :=
  ⟨⟨by decide, by decide, by decide, by unfold Bytes; decide, by decide, by decide, by decide⟩,
    blur_line_triangular_average 5
      [0, 0, 0, 255, 0, 0, 0, 255, 0, 0, 0, 255, 0, 0, 0, 255, 255, 255, 255, 255]
      5 1 20 1 false 0 true (List.replicate 9 0)
      (by decide) (by decide) (by decide) (by unfold Bytes; decide) (by decide) (by decide)
      (by decide)⟩

/-- C1 fails at radius 2901: on the one-pixel row `[255, 255, 255, 255]` the accumulator
`255 * 2902^2` exceeds the `int32_t` range, and `blur_line` stores `2` where the triangular
average is `255`. -/
theorem blur_line_radius_2901_overflow :
    (blur_line 1 [255, 255, 255, 255] 1 1 4 2901 false 0 true (List.replicate 17409 0)).map
        (fun p => rd p.1 (lineAddr 4 true 0 0 0)) = some 2 ∧
      triangularAverage (fun y => rd [255, 255, 255, 255] (lineAddr 4 true 0 y 0)) 1 2901 0
        = 255 := by
  have hv : winVal [255, 255, 255, 255] (lineBase 4 0 true) (lineStride 4 true) 1 2901 0 =
      fun _ => 255 := by
    funext a
    simp [winVal, pixAt, lineBase, lineStride, rd]
  constructor
  · obtain ⟨bm', st', e, _, _, hw, _⟩ :=
      blur_line_spec 1 [255, 255, 255, 255] 1 1 4 2901 false 0 true (List.replicate 17409 0)
        (by decide) (by decide) (by decide)
        (by rw [List.length_replicate]; decide) (by decide)
    rw [e]
    have := hw 0 0 (by decide) (by decide)
    have hlen : lineLen 1 1 true = 1 := rfl
    rw [hlen] at this
    simp only [Option.map_some', Option.some.injEq]
    show rd bm' (pixAt _ _ 0 + 0) = 2
    rw [this]
    unfold outByte
    rw [hv, triSum_const]
    decide
  · have := triSum_div_eq [255, 255, 255, 255] (lineBase 4 0 true) (lineStride 4 true) 1 2901
      0 0 (by decide)
    show triangularAverage (fun y => rd [255, 255, 255, 255]
      (pixAt (lineBase 4 0 true) (lineStride 4 true) y + 0)) 1 2901 0 = 255
    rw [← this, hv, triSum_const]
    decide

/-! ## C2: the worker ranges tile the dimension -/

theorem ext_rd {l1 l2 : List Nat} (hl : l1.length = l2.length) (h : ∀ a, rd l1 a = rd l2 a) :
    l1 = l2 := by
  apply List.ext_getElem hl
  intro a h1 h2
  have := h a
  unfold rd at this
  rw [List.getD_eq_getElem?_getD, List.getD_eq_getElem?_getD, List.getElem?_eq_getElem h1,
    List.getElem?_eq_getElem h2] at this
  exact this

theorem outByte_flat {bm : List Nat} (hb : Bytes bm) (base stride n j x : Nat) {r : Nat}
    (hr : r ≤ 2900) (hn : 1 ≤ n)
    (hflat : ∀ y, y < n → rd bm (pixAt base stride y + j) = rd bm (pixAt base stride 0 + j)) :
    outByte bm base stride n r j x = rd bm (pixAt base stride 0 + j) := by
  have h := outByte_exact hb base stride n j x hr
  have hv : winVal bm base stride n r j = fun _ => (rd bm (pixAt base stride 0 + j) : Int) := by
    funext a
    unfold winVal
    rw [hflat _ (by omega)]
  rw [hv, triSum_const, Int.mul_ediv_cancel _ (ne_of_gt (sq_bound hr).1)] at h
  exact_mod_cast h

/-- C5 (amended): for every line of length `n ≥ 1` inside the buffer whose pixels all carry
the same values in the blurred channels, and every radius `0 ≤ r ≤ 2900`, `blur_line` returns
and leaves the whole buffer, hence every pixel of the line including positions `0` and `n-1`,
unchanged. -/
theorem blur_line_flat_fixed_point (fuel : Nat) (bm : List Nat) (w h img_stride r : Nat)
    (blurAlpha : Bool) (line_idx : Nat) (hz : Bool) (st : List Nat)
    (hn : 1 ≤ lineLen w h hz) (hs : 1 ≤ lineStride img_stride hz)
    (hin : lineAddr img_stride hz line_idx (lineLen w h hz - 1) (chans blurAlpha) ≤ bm.length)
    (hb : Bytes bm) (hL : (r * 2 + 1) * chans blurAlpha ≤ st.length)
    (hf : lineLen w h hz ≤ fuel) (hr : r ≤ 2900)
    (hflat : ∀ y j, y < lineLen w h hz → j < chans blurAlpha →
      rd bm (lineAddr img_stride hz line_idx y j) = rd bm (lineAddr img_stride hz line_idx 0 j)) :
    ∃ st', blur_line fuel bm w h img_stride r blurAlpha line_idx hz st = some (bm, st') := by
  obtain ⟨bm', st', e, l, _, hw, hfr⟩ :=
    blur_line_spec fuel bm w h img_stride r blurAlpha line_idx hz st hn hs hin hL hf
  have : bm' = bm := by
    apply ext_rd l
    intro a
    by_cases hex : ∃ y j, y < lineLen w h hz ∧ j < chans blurAlpha ∧
        a = pixAt (lineBase img_stride line_idx hz) (lineStride img_stride hz) y + j
    · obtain ⟨y, j, hy, hj, rfl⟩ := hex
      rw [hw y j hy hj, outByte_flat hb _ _ _ _ _ hr hn (fun y' hy' => hflat y' j hy' hj)]
      exact (hflat y j hy hj).symm
    · apply hfr
      intro y j hy hj heq
      exact hex ⟨y, j, hy, hj, heq⟩
  exact ⟨st', by rw [e, this]⟩

theorem flat_column_example : ∀ y j, y < lineLen 1 3 false → j < chans false →
    rd [10, 20, 30, 40, 0, 0, 0, 0, 10, 20, 30, 41, 0, 0, 0, 0, 10, 20, 30, 42]
        (lineAddr 8 false 0 y j) =
      rd [10, 20, 30, 40, 0, 0, 0, 0, 10, 20, 30, 41, 0, 0, 0, 0, 10, 20, 30, 42]
        (lineAddr 8 false 0 0 j) := by
  intro y j hy hj
  have hy' : y < 3 := hy
  have hj' : j < 3 := hj
  interval_cases y <;> interval_cases j <;> rfl

/-- Instance of C5 (amended): a flat column of three pixels in a padded 1x3 image. -/
theorem blur_line_flat_fixed_point_witness :
    (1 ≤ lineLen 1 3 false ∧ 1 ≤ lineStride 8 false ∧
      lineAddr 8 false 0 (lineLen 1 3 false - 1) (chans false) ≤
        [10, 20, 30, 40, 0, 0, 0, 0, 10, 20, 30, 41, 0, 0, 0, 0, 10, 20, 30, 42].length ∧
      Bytes [10, 20, 30, 40, 0, 0, 0, 0, 10, 20, 30, 41, 0, 0, 0, 0, 10, 20, 30, 42] ∧
      (2 * 2 + 1) * chans false ≤ (List.replicate 15 0).length ∧
      lineLen 1 3 false ≤ 3 ∧ 2 ≤ 2900 ∧
      ∀ y j, y < lineLen 1 3 false → j < chans false →
        rd [10, 20, 30, 40, 0, 0, 0, 0, 10, 20, 30, 41, 0, 0, 0, 0, 10, 20, 30, 42]
            (lineAddr 8 false 0 y j) =
          rd [10, 20, 30, 40, 0, 0, 0, 0, 10, 20, 30, 41, 0, 0, 0, 0, 10, 20, 30, 42]
            (lineAddr 8 false 0 0 j)) ∧
    ∃ st', blur_line 3
        [10, 20, 30, 40, 0, 0, 0, 0, 10, 20, 30, 41, 0, 0, 0, 0, 10, 20, 30, 42]
        1 3 8 2 false 0 false (List.replicate 15 0) =
      some ([10, 20, 30, 40, 0, 0, 0, 0, 10, 20, 30, 41, 0, 0, 0, 0, 10, 20, 30, 42], st') :=
  ⟨⟨by decide, by decide, by decide, by unfold Bytes; decide, by decide, by decide, by decide,
      flat_column_example⟩,
    blur_line_flat_fixed_point 3
      [10, 20, 30, 40, 0, 0, 0, 0, 10, 20, 30, 41, 0, 0, 0, 0, 10, 20, 30, 42]
      1 3 8 2 false 0 false (List.replicate 15 0)
      (by decide) (by decide) (by decide) (by unfold Bytes; decide) (by decide) (by decide)
      (by decide) flat_column_example⟩

/-- C5 fails at radius 2901: on the flat two-pixel row of colour 255 the accumulator
overflows `int32_t` and `blur_line` turns the byte 255 at position 1 into 2. -/
theorem blur_line_flat_radius_2901 :
    (∀ y j, y < 2 → j < 4 →
      rd [255, 255, 255, 255, 255, 255, 255, 255] (lineAddr 8 true 0 y j) = 255) ∧
    (blur_line 2 [255, 255, 255, 255, 255, 255, 255, 255] 2 1 8 2901 false 0 true
        (List.replicate 17409 0)).map (fun p => rd p.1 (lineAddr 8 true 0 1 0)) = some 2 := by
  constructor
  · intro y j hy hj
    interval_cases y <;> interval_cases j <;> rfl
  · have hv : winVal [255, 255, 255, 255, 255, 255, 255, 255] (lineBase 8 0 true)
        (lineStride 8 true) 2 2901 0 = fun _ => 255 := by
      funext a
      unfold winVal
      have hm : min (a - 2901) (2 - 1) = 0 ∨ min (a - 2901) (2 - 1) = 1 := by omega
      rcases hm with hm | hm <;> rw [hm] <;> rfl
    obtain ⟨bm', st', e, _, _, hw, _⟩ :=
      blur_line_spec 2 [255, 255, 255, 255, 255, 255, 255, 255] 2 1 8 2901 false 0 true
        (List.replicate 17409 0) (by decide) (by decide) (by decide)
        (by rw [List.length_replicate]; decide) (by decide)
    rw [e]
    have := hw 1 0 (by decide) (by decide)
    have hlen : lineLen 2 1 true = 2 := rfl
    rw [hlen] at this
    simp only [Option.map_some', Option.some.injEq]
    show rd bm' (pixAt _ _ 1 + 0) = 2
    rw [this]
    unfold outByte
    rw [hv, triSum_const]
    decide

/-! ## C6: channel symmetry -/

theorem five_facts (bm : List Nat) (s j : Nat)
    (hch : (List.range 5).map (fun y => rd bm (lineAddr s true 0 y j)) = [0, 0, 0, 0, 255]) :
    rd bm (s * 0 + 4 * 0 + j) = 0 ∧ rd bm (s * 0 + 4 * 1 + j) = 0 ∧
    rd bm (s * 0 + 4 * 2 + j) = 0 ∧ rd bm (s * 0 + 4 * 3 + j) = 0 ∧
    rd bm (s * 0 + 4 * 4 + j) = 255 := by
  simp only [List.range, List.range.loop, List.map, lineAddr_eq, if_true, List.cons.injEq,
    and_true] at hch
  exact hch

/-- C7: on a single row of five pixels whose blurred channel `j` holds `[0, 0, 0, 0, 255]`, a
horizontal `blur_line` with radius 1 (divisor 4, weights 1/2/1, boundary pixel replicated)
returns and leaves `[0, 0, 0, 63, 191]` in that channel: position 0 is
`floor((1*0 + 2*0 + 1*0)/4) = 0` and position 4 is `floor((1*0 + 2*255 + 1*255)/4) = 191`. -/
theorem blur_line_five_pixel_row (bm st : List Nat) (s j : Nat)
    (hlen : 20 ≤ bm.length) (hb : Bytes bm) (hL : 9 ≤ st.length) (hj : j < 3)
    (hch : (List.range 5).map (fun y => rd bm (lineAddr s true 0 y j)) = [0, 0, 0, 0, 255]) :
    divSum 1 = 4 ∧
    ∃ bm' st', blur_line 5 bm 5 1 s 1 false 0 true st = some (bm', st') ∧
      (List.range 5).map (fun y => rd bm' (lineAddr s true 0 y j)) = [0, 0, 0, 63, 191] := by
  refine ⟨by decide, ?_⟩
  obtain ⟨h0, h1, h2, h3, h4⟩ := five_facts bm s j hch
  obtain ⟨bm', st', e, _, _, hw, _⟩ :=
    blur_line_spec 5 bm 5 1 s 1 false 0 true st (by decide) (by simp [lineStride])
      (by simp [pixAt, lineBase, lineStride, lineLen, chans]; omega) (by simpa [chans] using hL)
      (by decide)
  refine ⟨bm', st', e, ?_⟩
  have hv : ∀ a, winVal bm (lineBase s 0 true) (lineStride s true) (lineLen 5 1 true) 1 j a =
      if a ≤ 4 then 0 else 255 := by
    intro a
    simp only [winVal, pixAt, lineBase, lineStride, lineLen, if_true, Nat.mul_one]
    have hm : min (a - 1) (5 - 1) = 0 ∨ min (a - 1) (5 - 1) = 1 ∨ min (a - 1) (5 - 1) = 2 ∨
        min (a - 1) (5 - 1) = 3 ∨ (min (a - 1) (5 - 1) = 4 ∧ 4 < a) := by omega
    rcases hm with hm | hm | hm | hm | ⟨hm, ha⟩
    · rw [hm, h0, if_pos (by omega)]; rfl
    · rw [hm, h1, if_pos (by omega)]; rfl
    · rw [hm, h2, if_pos (by omega)]; rfl
    · rw [hm, h3, if_pos (by omega)]; rfl
    · rw [hm, h4, if_neg (by omega)]; rfl
  have hout : ∀ y, y < 5 → rd bm' (lineAddr s true 0 y j) =
      toU8 (Int.tdiv (wrap32 (triSum (fun a => if a ≤ 4 then 0 else 255) 1 y)) (divSum 1)) := by
    intro y hy
    have := hw y j hy (by simpa [chans] using hj)
    unfold lineAddr
    rw [this]
    unfold outByte
    rw [funext hv]
  simp only [List.range, List.range.loop, List.map]
  rw [hout 0 (by omega), hout 1 (by omega), hout 2 (by omega), hout 3 (by omega),
    hout 4 (by omega)]
  decide

/-- Instance of C7: the row with alpha 255 and the red channel. -/
theorem blur_line_five_pixel_row_witness :
    (20 ≤ [0, 0, 0, 255, 0, 0, 0, 255, 0, 0, 0, 255, 0, 0, 0, 255, 255, 255, 255, 255].length ∧
      Bytes [0, 0, 0, 255, 0, 0, 0, 255, 0, 0, 0, 255, 0, 0, 0, 255, 255, 255, 255, 255] ∧
      9 ≤ (List.replicate 9 7).length ∧ 0 < 3 ∧
      (List.range 5).map (fun y => rd
        [0, 0, 0, 255, 0, 0, 0, 255, 0, 0, 0, 255, 0, 0, 0, 255, 255, 255, 255, 255]
        (lineAddr 20 true 0 y 0)) = [0, 0, 0, 0, 255]) ∧
    (divSum 1 = 4 ∧
    ∃ bm' st', blur_line 5
        [0, 0, 0, 255, 0, 0, 0, 255, 0, 0, 0, 255, 0, 0, 0, 255, 255, 255, 255, 255]
        5 1 20 1 false 0 true (List.replicate 9 7) = some (bm', st') ∧
      (List.range 5).map (fun y => rd bm' (lineAddr 20 true 0 y 0)) = [0, 0, 0, 63, 191]) :=
  ⟨⟨by decide, by unfold Bytes; decide, by decide, by decide, by decide⟩,
    blur_line_five_pixel_row
      [0, 0, 0, 255, 0, 0, 0, 255, 0, 0, 0, 255, 0, 0, 0, 255, 255, 255, 255, 255]
      (List.replicate 9 7) 20 0 (by decide) (by unfold Bytes; decide) (by decide) (by decide)
      (by decide)⟩

/-! ## C8: the order of the passes is observable -/

/-- C8: on the 2x2 image whose colour channels hold rows `[0, 6]` and `[0, 0]`, with radius
1, the full horizontal pass followed by the full vertical pass gives rows `[0, 3]`, `[0, 1]`,
while vertical followed by horizontal gives rows `[1, 3]`, `[0, 0]`. -/
theorem pass_order_observable :
    ((stackblurJob 2 (fun n => some (List.replicate n 0))
        [0, 0, 0, 255, 6, 6, 6, 255, 0, 0, 0, 255, 0, 0, 0, 255] 2 2 8 1 1 0 true).bind
      (fun p => stackblurJob 2 (fun n => some (List.replicate n 0)) p.2 2 2 8 1 1 0 false) =
      some (0, [0, 0, 0, 255, 3, 3, 3, 255, 0, 0, 0, 255, 1, 1, 1, 255])) ∧
    ((stackblurJob 2 (fun n => some (List.replicate n 0))
        [0, 0, 0, 255, 6, 6, 6, 255, 0, 0, 0, 255, 0, 0, 0, 255] 2 2 8 1 1 0 false).bind
      (fun p => stackblurJob 2 (fun n => some (List.replicate n 0)) p.2 2 2 8 1 1 0 true) =
      some (0, [1, 1, 1, 255, 3, 3, 3, 255, 0, 0, 0, 255, 0, 0, 0, 255])) ∧
    (stackblurJob 2 (fun n => some (List.replicate n 0))
        [0, 0, 0, 255, 6, 6, 6, 255, 0, 0, 0, 255, 0, 0, 0, 255] 2 2 8 1 1 0 true).bind
      (fun p => stackblurJob 2 (fun n => some (List.replicate n 0)) p.2 2 2 8 1 1 0 false) ≠
    (stackblurJob 2 (fun n => some (List.replicate n 0))
        [0, 0, 0, 255, 6, 6, 6, 255, 0, 0, 0, 255, 0, 0, 0, 255] 2 2 8 1 1 0 false).bind
      (fun p => stackblurJob 2 (fun n => some (List.replicate n 0)) p.2 2 2 8 1 1 0 true) := by
  decide

/-! ## C9: the return code -/

/-- C12 at its failing input: the bitmap is locked (`getInfo` and `lockPixels` answer 0, the
format is RGBA_8888) and the scratch allocation of `stackblurJob` fails; the function logs,
throws and returns at line 191 without calling `AndroidBitmap_unlockPixels`, while with a
successful allocation it does call it. -/
theorem functionToBlur_no_unlock_on_failure :
    functionToBlur 2 (fun _ => none) 0 true 0 0
        [1, 2, 3, 255, 4, 5, 6, 255, 7, 8, 9, 255, 10, 11, 12, 255] 2 2 8 1 1 0 true =
      some ([Call.getInfo, Call.lockPixels, Call.stackblurJob, Call.logE, Call.throwOom],
        [1, 2, 3, 255, 4, 5, 6, 255, 7, 8, 9, 255, 10, 11, 12, 255]) ∧
    Call.unlockPixels ∉
      [Call.getInfo, Call.lockPixels, Call.stackblurJob, Call.logE, Call.throwOom] ∧
    (functionToBlur 2 (fun n => some (List.replicate n 0)) 0 true 0 0
        [1, 2, 3, 255, 4, 5, 6, 255, 7, 8, 9, 255, 10, 11, 12, 255] 2 2 8 1 1 0 true).map
        (fun p => p.1) =
      some [Call.getInfo, Call.lockPixels, Call.stackblurJob, Call.unlockPixels] := by
  refine ⟨by decide, by decide, by decide⟩

/-! ## C20: balanced ranges -/

theorem blur_line_eq_sweep (fuel : Nat) (bm : List Nat) (w h img_stride r : Nat)
    (blurAlpha : Bool) (line_idx : Nat) (hz : Bool) (st : List Nat) :
    blur_line fuel bm w h img_stride r blurAlpha line_idx hz st =
      (sweep (chans blurAlpha) (lineStride img_stride hz)
        (pixAt (lineBase img_stride line_idx hz) (lineStride img_stride hz)
          (lineLen w h hz - 1)) (r * 2 + 1) (divSum r) fuel
        (sweepStart bm (chans blurAlpha) r (lineStride img_stride hz)
          (lineBase img_stride line_idx hz)
          (pixAt (lineBase img_stride line_idx hz) (lineStride img_stride hz)
            (lineLen w h hz - 1)) st)).map (fun s => (s.bitmap, s.stack)) :=
  blur_line_unfold fuel bm w h img_stride r blurAlpha line_idx hz st

/-- The loop is entered with the invariant for position 0. -/
theorem sweepStart_inv (bm : List Nat) (base stride n r c : Nat) (ds : Int) (st : List Nat)
    (hs : 1 ≤ stride) (hn : 1 ≤ n) (hc0 : 0 < c) (hc : c ≤ 4)
    (hL : (r * 2 + 1) * c ≤ st.length) :
    SweepInv bm base stride n r c st.length ds 0
      (sweepStart bm c r stride base (pixAt base stride (n - 1)) st) := by
  unfold sweepStart
  have hp0 : pixAt base stride 0 = base := by simp [pixAt]
  obtain ⟨st1, sm1, so1, e1, l0, l1, l2, hS1, hsum1⟩ :=
    primeLeft_spec bm base stride n r hc hL
      { bitmap := bm, stack := st
        sum := [0, 0, 0, 0], sum_out := [0, 0, 0, 0], sum_in := [0, 0, 0, 0]
        src := base, dst := base, stack_i := 0, stack_drop := 0 }
      rfl hp0.symm rfl rfl rfl rdI_zeros rdI_zeros
  rw [e1]
  simp only
  obtain ⟨st2, sm2, si2, sti, e2, m0, m1, m3, hS2, hsum2⟩ :=
    primeRight_spec bm base stride n r
      hs hn hc0 hc hL
      { bitmap := bm, stack := st1
        sum := sm1, sum_out := so1, sum_in := [0, 0, 0, 0]
        src := base, dst := base, stack_i := 0, stack_drop := 0 }
      rfl hp0.symm l0 l1 rfl hS1 (fun j hj => (hsum1 j hj).1) rdI_zeros
  rw [e2]
  simp only
  refine ⟨?_, hp0.symm, ?_, ?_, rfl, m0, m1, l2, m3, ?_, ?_, ?_, ?_⟩
  · simp
  · show r = (r + 0) % (r * 2 + 1)
    rw [Nat.add_zero, Nat.mod_eq_of_lt (by omega)]
  · show r * 2 + 1 - 1 = (r * 2 + 0) % (r * 2 + 1)
    rw [Nat.add_zero, Nat.mod_eq_of_lt (by omega)]; omega
  · intro y j hy _; omega
  · intro a _; rfl
  · intro t j ht hj
    show (rd st2 _ : Int) = _
    rw [Nat.zero_add, Nat.mod_eq_of_lt ht]
    exact hS2 t j ht hj
  · intro j hj
    refine ⟨(hsum2 j hj).1, ?_, ?_⟩
    · exact (hsum1 j hj).2
    · show rdI si2 j = _
      rw [(hsum2 j hj).2]
      simp only [Nat.zero_add]

/-- With enough fuel the loop emits `n - x` more times, and the `k`-th of these frames
satisfies the invariant of position `x + k`. -/
theorem sweepTrace_spec {bm0 : List Nat} {base stride n r c L : Nat} {ds : Int}
    (hs : 1 ≤ stride) (hc : c ≤ 4) (hL : (r * 2 + 1) * c ≤ L)
    (hb : pixAt base stride (n - 1) + c ≤ bm0.length) :
    ∀ (fuel x : Nat) (s : Frame), x < n → n - x ≤ fuel →
      SweepInv bm0 base stride n r c L ds x s →
      (sweepTrace c stride (pixAt base stride (n - 1)) (r * 2 + 1) ds fuel s).length = n - x ∧
      ∀ k, k < n - x → ∃ e,
        (sweepTrace c stride (pixAt base stride (n - 1)) (r * 2 + 1) ds fuel s)[k]? = some e ∧
        EmitInv bm0 base stride n r c L ds (x + k) e := by
  intro fuel
  induction fuel with
  | zero => intro x s hx hf _; omega
  | succ fuel ih =>
    intro x s hx hf h
    have he := emit_inv hs hc hb hx h
    unfold sweepTrace
    simp only
    by_cases hlast : x = n - 1
    · subst hlast
      rw [if_pos he.dst_eq]
      refine ⟨by simp; omega, fun k hk => ?_⟩
      have hk0 : k = 0 := by omega
      subst hk0
      exact ⟨_, by simp, he⟩
    · have hne : (emitStep c stride (pixAt base stride (n - 1)) (r * 2 + 1) ds s).dst ≠
          pixAt base stride (n - 1) := by
        rw [he.dst_eq, Ne, pixAt_inj hs]; exact hlast
      rw [if_neg hne]
      obtain ⟨hlen, hk⟩ := ih (x + 1) _ (by omega) (by omega) (slide_inv hs hc hL (by omega) he)
      refine ⟨by rw [List.length_cons, hlen]; omega, fun k hk' => ?_⟩
      cases k with
      | zero => exact ⟨_, by simp, he⟩
      | succ k =>
        obtain ⟨e, h1, h2⟩ := hk k (by omega)
        refine ⟨e, by simpa using h1, ?_⟩
        have : x + (k + 1) = x + 1 + k := by omega
        rw [this]; exact h2

/-- The frames right after each emit of one `blur_line` call on a line inside the buffer:
there are exactly `n` of them and the `x`-th satisfies the invariant of position `x`. -/
theorem blurTrace_spec (fuel : Nat) (bm : List Nat) (w h img_stride r : Nat) (blurAlpha : Bool)
    (line_idx : Nat) (hz : Bool) (st : List Nat)
    (hn : 1 ≤ lineLen w h hz) (hs : 1 ≤ lineStride img_stride hz)
    (hb : pixAt (lineBase img_stride line_idx hz) (lineStride img_stride hz)
      (lineLen w h hz - 1) + chans blurAlpha ≤ bm.length)
    (hL : (r * 2 + 1) * chans blurAlpha ≤ st.length) (hf : lineLen w h hz ≤ fuel) :
    (blurTrace fuel bm w h img_stride r blurAlpha line_idx hz st).length = lineLen w h hz ∧
    ∀ x, x < lineLen w h hz → ∃ e,
      (blurTrace fuel bm w h img_stride r blurAlpha line_idx hz st)[x]? = some e ∧
      EmitInv bm (lineBase img_stride line_idx hz) (lineStride img_stride hz) (lineLen w h hz) r
        (chans blurAlpha) st.length (divSum r) x e := by
  have hinv := sweepStart_inv bm (lineBase img_stride line_idx hz) (lineStride img_stride hz)
    (lineLen w h hz) r (chans blurAlpha) (divSum r) st hs hn (chans_pos _) (chans_le _) hL
  obtain ⟨hlen, hk⟩ := sweepTrace_spec hs (chans_le blurAlpha) hL hb fuel 0 _ (by omega)
    (by omega) hinv
  unfold blurTrace
  refine ⟨by rw [hlen]; omega, fun x hx => ?_⟩
  obtain ⟨e, h1, h2⟩ := hk x (by omega)
  rw [Nat.zero_add] at h2
  exact ⟨e, h1, h2⟩

/-! ## C15: the number of iterations -/

theorem triangularAverage_eq (inp : Nat → Nat) (n r x : Nat) :
    triangularAverage inp n r x = triangularSum inp n r x / (((r : Int) + 1) ^ 2) := rfl

theorem Wsum_bounds (v : Nat → Int) (K : Int) (h : ∀ a, 0 ≤ v a ∧ v a ≤ K) (m y : Nat) :
    0 ≤ Wsum v m y ∧ Wsum v m y ≤ K * m := by
  induction m with
  | zero => simp [Wsum]
  | succ m ih =>
    obtain ⟨h0, h1⟩ := h (y + m)
    simp only [Wsum]
    push_cast
    constructor
    · linarith [ih.1]
    · linarith [ih.2]

theorem wrap32_triSum {bm : List Nat} (hb : Bytes bm) (base stride n j x : Nat) {r : Nat}
    (hr : r ≤ 2900) :
    wrap32 (triSum (winVal bm base stride n r j) r x) = triSum (winVal bm base stride n r j) r x := by
  obtain ⟨s0, s1⟩ := triSum_bounds (winVal bm base stride n r j) 255
    (winVal_range hb base stride n r j) r x
  obtain ⟨_, d1⟩ := sq_bound hr
  exact wrap32_id (by omega) (by omega)

theorem wrap32_Wsum {bm : List Nat} (hb : Bytes bm) (base stride n j m y : Nat) {r : Nat}
    (hm : m ≤ 2901) :
    wrap32 (Wsum (winVal bm base stride n r j) m y) = Wsum (winVal bm base stride n r j) m y := by
  obtain ⟨s0, s1⟩ := Wsum_bounds (winVal bm base stride n r j) 255
    (winVal_range hb base stride n r j) m y
  have : (m : Int) ≤ 2901 := by omega
  exact wrap32_id (by omega) (by omega)

theorem Asum_between (v : Nat → Int) (lo hi : Int) (m x : Nat)
    (h : ∀ i, i < m → lo ≤ v (x + i) ∧ v (x + i) ≤ hi) :
    lo * m * (m + 1) ≤ 2 * Asum v m x ∧ 2 * Asum v m x ≤ hi * m * (m + 1) := by
  induction m with
  | zero => simp [Asum]
  | succ m ih =>
    obtain ⟨h0, h1⟩ := h m (by omega)
    obtain ⟨i0, i1⟩ := ih (fun i hi' => h i (by omega))
    have hm : (0 : Int) ≤ (m : Int) + 1 := by omega
    have e1 : ((m : Int) + 1) * lo ≤ ((m : Int) + 1) * v (x + m) :=
      mul_le_mul_of_nonneg_left h0 hm
    have e2 : ((m : Int) + 1) * v (x + m) ≤ ((m : Int) + 1) * hi :=
      mul_le_mul_of_nonneg_left h1 hm
    simp only [Asum]
    push_cast
    constructor
    · nlinarith
    · nlinarith

theorem Bsum_between (v : Nat → Int) (lo hi : Int) (c m y : Nat) (hm : m ≤ c)
    (h : ∀ i, i < m → lo ≤ v (y + i) ∧ v (y + i) ≤ hi) :
    lo * m * (2 * c - m + 1) ≤ 2 * Bsum v (c : Int) m y ∧
      2 * Bsum v (c : Int) m y ≤ hi * m * (2 * c - m + 1) := by
  induction m with
  | zero => simp [Bsum]
  | succ m ih =>
    obtain ⟨h0, h1⟩ := h m (by omega)
    obtain ⟨i0, i1⟩ := ih (by omega) (fun i hi' => h i (by omega))
    have hc : (0 : Int) ≤ (c : Int) - m := by omega
    have e1 : ((c : Int) - m) * lo ≤ ((c : Int) - m) * v (y + m) :=
      mul_le_mul_of_nonneg_left h0 hc
    have e2 : ((c : Int) - m) * v (y + m) ≤ ((c : Int) - m) * hi :=
      mul_le_mul_of_nonneg_left h1 hc
    simp only [Bsum]
    push_cast
    constructor
    · nlinarith
    · nlinarith

theorem triSum_between (v : Nat → Int) (lo hi : Int) (r x : Nat)
    (h : ∀ t, t < 2 * r + 1 → lo ≤ v (x + t) ∧ v (x + t) ≤ hi) :
    lo * ((r : Int) + 1) ^ 2 ≤ triSum v r x ∧ triSum v r x ≤ hi * ((r : Int) + 1) ^ 2 := by
  obtain ⟨a0, a1⟩ := Asum_between v lo hi (r + 1) x (fun i hi' => h i (by omega))
  obtain ⟨b0, b1⟩ := Bsum_between v lo hi r r (x + r + 1) (Nat.le_refl r) (fun i hi' => by
    have := h (r + 1 + i) (by omega)
    have e : x + (r + 1 + i) = x + r + 1 + i := by omega
    rw [e] at this
    exact this)
  unfold triSum
  push_cast at a0 a1
  constructor
  · nlinarith
  · nlinarith

/-- Below the overflow threshold the quotient `sum[j] / div_sum` at emission is the exact
quotient and lies in `0..255`. -/
theorem emit_quotient {bm : List Nat} (hb : Bytes bm) (base stride n j x : Nat) {r : Nat}
    (hr : r ≤ 2900) :
    Int.tdiv (wrap32 (triSum (winVal bm base stride n r j) r x)) (divSum r) =
        triSum (winVal bm base stride n r j) r x / (((r : Int) + 1) ^ 2) ∧
      0 ≤ triSum (winVal bm base stride n r j) r x / (((r : Int) + 1) ^ 2) ∧
      triSum (winVal bm base stride n r j) r x / (((r : Int) + 1) ^ 2) ≤ 255 := by
  obtain ⟨s0, s1⟩ := triSum_bounds (winVal bm base stride n r j) 255
    (winVal_range hb base stride n r j) r x
  obtain ⟨d0, d1⟩ := sq_bound hr
  rw [divSum_eq hr, wrap32_id (by omega) (by omega), Int.tdiv_eq_ediv s0 (le_of_lt d0)]
  exact ⟨rfl, Int.ediv_nonneg s0 (le_of_lt d0), Int.ediv_le_of_le_mul d0 s1⟩

/-- C17 (amended): for every line of length `n ≥ 1` inside a buffer of bytes and every radius
`0 ≤ r ≤ 2900`, the byte `blur_line` writes at position `x`, channel `j`, lies between any
bounds `lo ≤ hi` of the clamped window around `x`, hence of the whole line, in channel `j`;
at emission `sum[j] / div_sum` lies in `0..255` and is the byte written, so the cast to
`uint8_t` does not truncate. -/
theorem blur_line_output_range (fuel : Nat) (bm : List Nat) (w h img_stride r : Nat)
    (blurAlpha : Bool) (line_idx : Nat) (hz : Bool) (st : List Nat)
    (hn : 1 ≤ lineLen w h hz) (hs : 1 ≤ lineStride img_stride hz)
    (hin : lineAddr img_stride hz line_idx (lineLen w h hz - 1) (chans blurAlpha) ≤ bm.length)
    (hb : Bytes bm) (hL : (r * 2 + 1) * chans blurAlpha ≤ st.length)
    (hf : lineLen w h hz ≤ fuel) (hr : r ≤ 2900) :
    ∃ bm' st', blur_line fuel bm w h img_stride r blurAlpha line_idx hz st = some (bm', st') ∧
      ∀ x j, x < lineLen w h hz → j < chans blurAlpha →
        (∀ lo hi : Nat,
          (∀ t, t < 2 * r + 1 →
            lo ≤ rd bm (lineAddr img_stride hz line_idx
              (clamp ((x : Int) + ((t : Int) - (r : Int))) 0
                ((lineLen w h hz : Int) - 1)).toNat j) ∧
            rd bm (lineAddr img_stride hz line_idx
              (clamp ((x : Int) + ((t : Int) - (r : Int))) 0
                ((lineLen w h hz : Int) - 1)).toNat j) ≤ hi) →
          lo ≤ rd bm' (lineAddr img_stride hz line_idx x j) ∧
            rd bm' (lineAddr img_stride hz line_idx x j) ≤ hi) ∧
        (∀ lo hi : Nat,
          (∀ y, y < lineLen w h hz →
            lo ≤ rd bm (lineAddr img_stride hz line_idx y j) ∧
            rd bm (lineAddr img_stride hz line_idx y j) ≤ hi) →
          lo ≤ rd bm' (lineAddr img_stride hz line_idx x j) ∧
            rd bm' (lineAddr img_stride hz line_idx x j) ≤ hi) ∧
        ∃ e, (blurTrace fuel bm w h img_stride r blurAlpha line_idx hz st)[x]? = some e ∧
          0 ≤ Int.tdiv (rdI e.sum j) (divSum r) ∧ Int.tdiv (rdI e.sum j) (divSum r) ≤ 255 ∧
          (rd bm' (lineAddr img_stride hz line_idx x j) : Int) =
            Int.tdiv (rdI e.sum j) (divSum r) := by
  obtain ⟨bm', st', e, _, _, hw, _⟩ :=
    blur_line_spec fuel bm w h img_stride r blurAlpha line_idx hz st hn hs hin hL hf
  obtain ⟨_, hk⟩ := blurTrace_spec fuel bm w h img_stride r blurAlpha line_idx hz st
    hn hs hin hL hf
  refine ⟨bm', st', e, fun x j hx hj => ?_⟩
  have hout : (rd bm' (lineAddr img_stride hz line_idx x j) : Int) =
      triSum (winVal bm (lineBase img_stride line_idx hz) (lineStride img_stride hz)
        (lineLen w h hz) r j) r x / (((r : Int) + 1) ^ 2) := by
    show (rd bm' (pixAt _ _ x + j) : Int) = _
    rw [hw x j hx hj, outByte_exact hb _ _ _ _ _ hr]
  obtain ⟨d0, _⟩ := sq_bound hr
  have hwin : ∀ lo hi : Nat,
      (∀ t, t < 2 * r + 1 →
        lo ≤ rd bm (lineAddr img_stride hz line_idx
          (clamp ((x : Int) + ((t : Int) - (r : Int))) 0
            ((lineLen w h hz : Int) - 1)).toNat j) ∧
        rd bm (lineAddr img_stride hz line_idx
          (clamp ((x : Int) + ((t : Int) - (r : Int))) 0
            ((lineLen w h hz : Int) - 1)).toNat j) ≤ hi) →
      lo ≤ rd bm' (lineAddr img_stride hz line_idx x j) ∧
        rd bm' (lineAddr img_stride hz line_idx x j) ≤ hi := by
    intro lo hi hbd
    obtain ⟨t0, t1⟩ := triSum_between (winVal bm (lineBase img_stride line_idx hz)
      (lineStride img_stride hz) (lineLen w h hz) r j) (lo : Int) (hi : Int) r x (by
        intro t ht
        have := hbd t ht
        rw [clamp_toNat x t r _ hn] at this
        unfold winVal
        unfold lineAddr at this
        exact ⟨by exact_mod_cast this.1, by exact_mod_cast this.2⟩)
    have q0 := Int.le_ediv_of_mul_le d0 t0
    have q1 := Int.ediv_le_of_le_mul d0 t1
    rw [← hout] at q0 q1
    exact ⟨by exact_mod_cast q0, by exact_mod_cast q1⟩
  refine ⟨hwin, ?_, ?_⟩
  · intro lo hi hbd
    apply hwin lo hi
    intro t _
    apply hbd
    rw [clamp_toNat x t r _ hn]
    omega
  · obtain ⟨e', h1, h2⟩ := hk x hx
    obtain ⟨q, q0, q1⟩ := emit_quotient hb (lineBase img_stride line_idx hz)
      (lineStride img_stride hz) (lineLen w h hz) j x hr
    refine ⟨e', h1, ?_, ?_, ?_⟩
    · rw [(h2.sums j hj).1, q]; exact q0
    · rw [(h2.sums j hj).1, q]; exact q1
    · rw [(h2.sums j hj).1, q]; exact hout


/-- Instance of C17 (amended): a row of two pixels, radius 1. -/
theorem blur_line_output_range_witness :
    (1 ≤ lineLen 2 1 true ∧ 1 ≤ lineStride 8 true ∧
      lineAddr 8 true 0 (lineLen 2 1 true - 1) (chans false) ≤
        [10, 20, 30, 4, 50, 60, 70, 8].length ∧
      Bytes [10, 20, 30, 4, 50, 60, 70, 8] ∧
      (1 * 2 + 1) * chans false ≤ (List.replicate 9 0).length ∧ lineLen 2 1 true ≤ 2 ∧
      1 ≤ 2900) ∧
    ∃ bm' st', blur_line 2 [10, 20, 30, 4, 50, 60, 70, 8] 2 1 8 1 false 0 true
        (List.replicate 9 0) = some (bm', st') ∧
      ∀ x j, x < lineLen 2 1 true → j < chans false →
        (∀ lo hi : Nat,
          (∀ t : Nat, t < 2 * 1 + 1 →
            lo ≤ rd [10, 20, 30, 4, 50, 60, 70, 8] (lineAddr 8 true 0
              (clamp ((x : Int) + ((t : Int) - ((1 : Nat) : Int))) 0
                ((lineLen 2 1 true : Int) - 1)).toNat j) ∧
            rd [10, 20, 30, 4, 50, 60, 70, 8] (lineAddr 8 true 0
              (clamp ((x : Int) + ((t : Int) - ((1 : Nat) : Int))) 0
                ((lineLen 2 1 true : Int) - 1)).toNat j) ≤ hi) →
          lo ≤ rd bm' (lineAddr 8 true 0 x j) ∧ rd bm' (lineAddr 8 true 0 x j) ≤ hi) ∧
        (∀ lo hi : Nat,
          (∀ y, y < lineLen 2 1 true →
            lo ≤ rd [10, 20, 30, 4, 50, 60, 70, 8] (lineAddr 8 true 0 y j) ∧
            rd [10, 20, 30, 4, 50, 60, 70, 8] (lineAddr 8 true 0 y j) ≤ hi) →
          lo ≤ rd bm' (lineAddr 8 true 0 x j) ∧ rd bm' (lineAddr 8 true 0 x j) ≤ hi) ∧
        ∃ e, (blurTrace 2 [10, 20, 30, 4, 50, 60, 70, 8] 2 1 8 1 false 0 true
            (List.replicate 9 0))[x]? = some e ∧
          0 ≤ Int.tdiv (rdI e.sum j) (divSum 1) ∧ Int.tdiv (rdI e.sum j) (divSum 1) ≤ 255 ∧
          (rd bm' (lineAddr 8 true 0 x j) : Int) = Int.tdiv (rdI e.sum j) (divSum 1) :=
  ⟨⟨by decide, by decide, by decide, by unfold Bytes; decide, by decide, by decide,
      by decide⟩,
    blur_line_output_range 2 [10, 20, 30, 4, 50, 60, 70, 8] 2 1 8 1 false 0 true
      (List.replicate 9 0) (by decide) (by decide) (by decide) (by unfold Bytes; decide)
      (by decide) (by decide) (by decide)⟩

/-- C17 fails at radius 2901: on the one-pixel column `[255, 255, 255, 255]`, whose only
value in channel 0 is 255, the quotient `sum[0] / div_sum` at emission is `-254` and the byte
written is 2. -/
theorem blur_line_range_radius_2901 :
    rd [255, 255, 255, 255] (lineAddr 4 false 0 0 0) = 255 ∧
    (blur_line 1 [255, 255, 255, 255] 1 1 4 2901 false 0 false (List.replicate 17409 0)).map
        (fun p => rd p.1 (lineAddr 4 false 0 0 0)) = some 2 ∧
    ∃ e, (blurTrace 1 [255, 255, 255, 255] 1 1 4 2901 false 0 false
        (List.replicate 17409 0))[0]? = some e ∧
      Int.tdiv (rdI e.sum 0) (divSum 2901) = -254 := by
  have hv : winVal [255, 255, 255, 255] (lineBase 4 0 false) (lineStride 4 false) 1 2901 0 =
      fun _ => 255 := by
    funext a
    simp [winVal, pixAt, lineBase, lineStride, rd]
  have hlen : lineLen 1 1 false = 1 := rfl
  refine ⟨by decide, ?_, ?_⟩
  · obtain ⟨bm', st', e, _, _, hw, _⟩ :=
      blur_line_spec 1 [255, 255, 255, 255] 1 1 4 2901 false 0 false (List.replicate 17409 0)
        (by decide) (by decide) (by decide) (by rw [List.length_replicate]; decide) (by decide)
    rw [e]
    have := hw 0 0 (by decide) (by decide)
    rw [hlen] at this
    simp only [Option.map_some', Option.some.injEq]
    show rd bm' (pixAt _ _ 0 + 0) = 2
    rw [this]
    unfold outByte
    rw [hv, triSum_const]
    decide
  · obtain ⟨_, hk⟩ := blurTrace_spec 1 [255, 255, 255, 255] 1 1 4 2901 false 0 false
      (List.replicate 17409 0) (by decide) (by decide) (by decide)
      (by rw [List.length_replicate]; decide) (by decide)
    obtain ⟨e, h1, h2⟩ := hk 0 (by decide)
    refine ⟨e, h1, ?_⟩
    have := (h2.sums 0 (by decide)).1
    rw [hlen, hv, triSum_const] at this
    rw [this]
    decide

/-! ## C13: the worker split is transparent -/

theorem emitStep_eq (c stride last div : Nat) (ds : Int) (s : Frame) :
    emitStep c stride last div ds s = forChannels c (emitChan ds) (emitPrep stride last div s) :=
  rfl

theorem forChannelsG_succ (c : Nat) (ok : Frame → Nat → Bool) (body : Frame → Nat → Frame)
    (s : Frame) :
    forChannelsG (c + 1) ok body s =
      (forChannelsG c ok body s).bind (fun t => if ok t c then some (body t c) else none) := by
  simp [forChannelsG, List.range_succ, List.foldlM_append]

/-- A guarded channel loop whose checks all pass is the channel loop. -/
theorem forChannelsG_eq (c : Nat) (ok : Frame → Nat → Bool) (body : Frame → Nat → Frame)
    (s : Frame) (h : ∀ k, k < c → ok (forChannels k body s) k = true) :
    forChannelsG c ok body s = some (forChannels c body s) := by
  induction c with
  | zero => rfl
  | succ c ih =>
    rw [forChannelsG_succ, ih (fun k hk => h k (by omega)), forChannels_succ]
    simp [h c (Nat.lt_succ_self c)]

theorem ChanEq0_refl (c k : Nat) (s : Frame) : ChanEq0 c k s s :=
  ⟨rfl, rfl, rfl, rfl, rfl, rfl, rfl, rfl, rfl, rfl, rfl, fun _ => rfl⟩

theorem chanEq_primeLeft {c k j i : Nat} {s t : Frame} (hk : k < c) (hj : j < c) (hne : j ≠ k)
    (h : ChanEq c k s t) : ChanEq c k s (primeLeftChan c i t j) := by
  obtain ⟨⟨a1, a2, a3, a4, a5, a6, a7, a8, a9, a10, a11, a12⟩, b⟩ := h
  refine ⟨⟨a1, a2, a3, a4, ?_, ?_, ?_, a8, ?_, ?_, a11, ?_⟩, b⟩
  · show (t.stack.set _ _).length = _
    rw [List.length_set, a5]
  · show (t.sum.set _ _).length = _
    rw [List.length_set, a6]
  · show (t.sum_out.set _ _).length = _
    rw [List.length_set, a7]
  · show rdI (t.sum.set _ _) k = _
    rw [rdI_set, if_neg (fun x => hne x.1), a9]
  · show rdI (t.sum_out.set _ _) k = _
    rw [rdI_set, if_neg (fun x => hne x.1), a10]
  · intro slot
    show rd (t.stack.set _ _) _ = _
    rw [rd_set, if_neg (fun x => hne ((slot_inj hj hk).mp x.1).2), a12]

theorem chanEq0_primeRight {c k j r i : Nat} {s t : Frame} (hk : k < c) (hj : j < c)
    (hne : j ≠ k) (h : ChanEq0 c k s t) : ChanEq0 c k s (primeRightChan c r i t j) := by
  obtain ⟨a1, a2, a3, a4, a5, a6, a7, a8, a9, a10, a11, a12⟩ := h
  refine ⟨a1, a2, a3, a4, ?_, ?_, a7, ?_, ?_, a10, ?_, ?_⟩
  · show (t.stack.set _ _).length = _
    rw [List.length_set, a5]
  · show (t.sum.set _ _).length = _
    rw [List.length_set, a6]
  · show (t.sum_in.set _ _).length = _
    rw [List.length_set, a8]
  · show rdI (t.sum.set _ _) k = _
    rw [rdI_set, if_neg (fun x => hne x.1), a9]
  · show rdI (t.sum_in.set _ _) k = _
    rw [rdI_set, if_neg (fun x => hne x.1), a11]
  · intro slot
    show rd (t.stack.set _ _) _ = _
    rw [rd_set, if_neg (fun x => hne ((slot_inj hj hk).mp x.1).2), a12]

theorem chanEq_slide {c k j : Nat} {s t : Frame} (hk : k < c) (hj : j < c) (hne : j ≠ k)
    (h : ChanEq c k s t) : ChanEq c k s (slideChan c t j) := by
  obtain ⟨⟨a1, a2, a3, a4, a5, a6, a7, a8, a9, a10, a11, a12⟩, b⟩ := h
  refine ⟨⟨a1, a2, a3, a4, ?_, ?_, ?_, ?_, ?_, ?_, ?_, ?_⟩, b⟩
  · show (t.stack.set _ _).length = _
    rw [List.length_set, a5]
  · show (t.sum.set _ _).length = _
    rw [List.length_set, a6]
  · show (t.sum_out.set _ _).length = _
    rw [List.length_set, a7]
  · show (t.sum_in.set _ _).length = _
    rw [List.length_set, a8]
  · show rdI (t.sum.set _ _) k = _
    rw [rdI_set, if_neg (fun x => hne x.1), a9]
  · show rdI (t.sum_out.set _ _) k = _
    rw [rdI_set, if_neg (fun x => hne x.1), a10]
  · show rdI (t.sum_in.set _ _) k = _
    rw [rdI_set, if_neg (fun x => hne x.1), a11]
  · intro slot
    show rd (t.stack.set _ _) _ = _
    rw [rd_set, if_neg (fun x => hne ((slot_inj hj hk).mp x.1).2), a12]

/-- After the channels below `k` have been processed, channel `k` is as in the start frame. -/
theorem chanEq_fold {c k : Nat} (body : Frame → Nat → Frame) (s : Frame) (hk : k < c)
    (R : Frame → Frame → Prop) (hrefl : R s s)
    (hstep : ∀ t j, j < c → j ≠ k → R s t → R s (body t j)) :
    R s (forChannels k body s) := by
  have key : ∀ m, m ≤ k → R s (forChannels m body s) := by
    intro m
    induction m with
    | zero => intro _; exact hrefl
    | succ m ih =>
      intro hm
      rw [forChannels_succ]
      exact hstep _ m (by omega) (by omega) (ih (by omega))
  exact key k (Nat.le_refl k)

theorem foldlM_range_succ (f : Frame → Nat → Option Frame) (a : Frame) (m : Nat) :
    (List.range (m + 1)).foldlM f a = ((List.range m).foldlM f a).bind (fun t => f t m) := by
  simp [List.range_succ, List.foldlM_append]

theorem left_loop_eq {g : Guard} {c : Nat} (hg : GuardResp g c) (i : Nat) (s : Frame)
    (hok : ∀ k, k < c → g.left i s k = true) :
    forChannelsG c (g.left i) (primeLeftChan c i) s =
      some (forChannels c (primeLeftChan c i) s) := by
  apply forChannelsG_eq
  intro k hk
  rw [hg.left i k s _ hk (chanEq_fold (primeLeftChan c i) s hk (ChanEq c k)
    ⟨ChanEq0_refl c k s, rfl⟩ (fun t j hj hne h => chanEq_primeLeft hk hj hne h))]
  exact hok k hk

theorem right_loop_eq {g : Guard} {c : Nat} (hg : GuardResp g c) (r i : Nat) (s : Frame)
    (hok : ∀ k, k < c → g.right i s k = true) :
    forChannelsG c (g.right i) (primeRightChan c r i) s =
      some (forChannels c (primeRightChan c r i) s) := by
  apply forChannelsG_eq
  intro k hk
  rw [hg.right i k s _ hk (chanEq_fold (primeRightChan c r i) s hk (ChanEq0 c k)
    (ChanEq0_refl c k s) (fun t j hj hne h => chanEq0_primeRight hk hj hne h))]
  exact hok k hk

theorem slide_loop_eq {g : Guard} {c : Nat} (hg : GuardResp g c) (s : Frame)
    (hok : ∀ k, k < c → g.slide s k = true) :
    forChannelsG c g.slide (slideChan c) s = some (forChannels c (slideChan c) s) := by
  apply forChannelsG_eq
  intro k hk
  rw [hg.slide k s _ hk (chanEq_fold (slideChan c) s hk (ChanEq c k)
    ⟨ChanEq0_refl c k s, rfl⟩ (fun t j hj hne h => chanEq_slide hk hj hne h))]
  exact hok k hk

theorem emit_loop_eq {g : Guard} {c : Nat} (hg : GuardResp g c) (ds : Int) (s : Frame)
    (hb : s.dst + c ≤ s.bitmap.length) (hok : ∀ k, k < c → g.emit s k = true) :
    forChannelsG c g.emit (emitChan ds) s = some (forChannels c (emitChan ds) s) := by
  apply forChannelsG_eq
  intro k hk
  obtain ⟨bm, he, hl, _⟩ := emit_fold k ds s (by omega)
  rw [he, hg.emit k s bm hk hl]
  exact hok k hk

/-- A guarded sweep whose checks pass at every frame of the invariant is the sweep. -/
theorem sweepG_eq {g : Guard} {bm0 : List Nat} {base stride n r c L : Nat} {ds : Int}
    (hg : GuardResp g c) (hs : 1 ≤ stride) (hc : c ≤ 4) (hL : (r * 2 + 1) * c ≤ L)
    (hb : pixAt base stride (n - 1) + c ≤ bm0.length)
    (hE : ∀ x s, x < n → SweepInv bm0 base stride n r c L ds x s → ∀ k, k < c →
      g.emit (emitPrep stride (pixAt base stride (n - 1)) (r * 2 + 1) s) k = true)
    (hS : ∀ x e, x + 1 < n → EmitInv bm0 base stride n r c L ds x e → ∀ k, k < c →
      g.slide { e with dst := e.dst + 4 * stride } k = true) :
    ∀ (fuel x : Nat) (s : Frame), x < n → SweepInv bm0 base stride n r c L ds x s →
      sweepG g c stride (pixAt base stride (n - 1)) (r * 2 + 1) ds fuel s =
        sweep c stride (pixAt base stride (n - 1)) (r * 2 + 1) ds fuel s := by
  intro fuel
  induction fuel with
  | zero => intro x s _ _; rfl
  | succ fuel ih =>
    intro x s hx h
    have he := emit_inv hs hc hb hx h
    have hprep : (emitPrep stride (pixAt base stride (n - 1)) (r * 2 + 1) s).dst + c ≤
        (emitPrep stride (pixAt base stride (n - 1)) (r * 2 + 1) s).bitmap.length := by
      have h1 : (emitPrep stride (pixAt base stride (n - 1)) (r * 2 + 1) s).dst = s.dst := by
        unfold emitPrep advanceSrc
        split <;> rfl
      have h2 : (emitPrep stride (pixAt base stride (n - 1)) (r * 2 + 1) s).bitmap =
          s.bitmap := by
        unfold emitPrep advanceSrc
        split <;> rfl
      rw [h1, h2, h.dst_eq, h.len_bm]
      have := @pixAt_le base stride x (n - 1) (by omega)
      omega
    unfold sweepG sweep
    rw [emit_loop_eq hg ds _ hprep (hE x s hx h), ← emitStep_eq]
    simp only [Option.some_bind]
    by_cases hd : (emitStep c stride (pixAt base stride (n - 1)) (r * 2 + 1) ds s).dst =
        pixAt base stride (n - 1)
    · rw [if_pos hd, if_pos hd]
    · rw [if_neg hd, if_neg hd]
      have hx1 : x + 1 < n := by
        rw [he.dst_eq, pixAt_inj hs] at hd
        omega
      rw [slide_loop_eq hg _ (hS x _ hx1 he)]
      simp only [Option.some_bind]
      exact ih (x + 1) _ hx1 (slide_inv hs hc hL hx1 he)

theorem primeLeftG_eq {g : Guard} {c : Nat} (hg : GuardResp g c) (r : Nat) (s0 : Frame)
    (hok : ∀ m, m ≤ r → ∀ k, k < c →
      g.left m ((List.range m).foldl (fun s i => forChannels c (primeLeftChan c i) s) s0) k =
        true) :
    primeLeftG g.left c r s0 = some (primeLeft c r s0) := by
  have key : ∀ m, m ≤ r + 1 →
      (List.range m).foldlM
        (fun s i => forChannelsG c (g.left i) (primeLeftChan c i) s) s0 =
      some ((List.range m).foldl (fun s i => forChannels c (primeLeftChan c i) s) s0) := by
    intro m
    induction m with
    | zero => intro _; rfl
    | succ m ih =>
      intro hm
      rw [foldlM_range_succ, ih (by omega), foldl_range_succ]
      simp only [Option.some_bind]
      exact left_loop_eq hg m _ (hok m (by omega))
  exact key (r + 1) (Nat.le_refl _)

theorem primeRightG_eq {g : Guard} {c : Nat} (hg : GuardResp g c) (r stride last : Nat)
    (t0 : Frame)
    (hok : ∀ m, m < r → ∀ k, k < c →
      g.right (m + 1) (advanceSrc stride last
        ((List.range m).foldl (fun s k => forChannels c (primeRightChan c r (k + 1))
          (advanceSrc stride last s)) t0)) k = true) :
    primeRightG g.right c r stride last t0 = some (primeRight c r stride last t0) := by
  have key : ∀ m, m ≤ r →
      (List.range m).foldlM
        (fun s k => forChannelsG c (g.right (k + 1)) (primeRightChan c r (k + 1))
          (advanceSrc stride last s)) t0 =
      some ((List.range m).foldl (fun s k => forChannels c (primeRightChan c r (k + 1))
          (advanceSrc stride last s)) t0) := by
    intro m
    induction m with
    | zero => intro _; rfl
    | succ m ih =>
      intro hm
      rw [foldlM_range_succ, ih (by omega), foldl_range_succ]
      simp only [Option.some_bind]
      exact right_loop_eq hg r (m + 1) _ (hok m (by omega))
  exact key r (Nat.le_refl _)

theorem blur_lineG_unfold (g : Guard) (fuel : Nat) (bm : List Nat) (w h img_stride r : Nat)
    (blurAlpha : Bool) (line_idx : Nat) (hz : Bool) (st : List Nat) :
    blur_lineG g fuel bm w h img_stride r blurAlpha line_idx hz st =
      (primeLeftG g.left (chans blurAlpha) r
        (lineInit bm st (lineBase img_stride line_idx hz))).bind (fun s =>
        (primeRightG g.right (chans blurAlpha) r (lineStride img_stride hz)
          (pixAt (lineBase img_stride line_idx hz) (lineStride img_stride hz)
            (lineLen w h hz - 1)) s).bind (fun s =>
          (sweepG g (chans blurAlpha) (lineStride img_stride hz)
            (pixAt (lineBase img_stride line_idx hz) (lineStride img_stride hz)
              (lineLen w h hz - 1)) (r * 2 + 1) (divSum r) fuel
            { s with stack_i := r, stack_drop := r * 2 + 1 - 1 }).map
            (fun s => (s.bitmap, s.stack)))) := by
  cases hz <;> rfl

/-- A guarded `blur_line` whose checks pass along the run is `blur_line`. -/
theorem blur_lineG_eq (g : Guard) (fuel : Nat) (bm : List Nat) (w h img_stride r : Nat)
    (blurAlpha : Bool) (line_idx : Nat) (hz : Bool) (st : List Nat)
    (hn : 1 ≤ lineLen w h hz) (hs : 1 ≤ lineStride img_stride hz)
    (hb : pixAt (lineBase img_stride line_idx hz) (lineStride img_stride hz)
      (lineLen w h hz - 1) + chans blurAlpha ≤ bm.length)
    (hL : (r * 2 + 1) * chans blurAlpha ≤ st.length)
    (hg : GuardResp g (chans blurAlpha))
    (hLeft : ∀ m, m ≤ r → ∀ k, k < chans blurAlpha →
      g.left m ((List.range m).foldl
        (fun s i => forChannels (chans blurAlpha) (primeLeftChan (chans blurAlpha) i) s)
        (lineInit bm st (lineBase img_stride line_idx hz))) k = true)
    (hRight : ∀ m, m < r → ∀ k, k < chans blurAlpha →
      g.right (m + 1) (advanceSrc (lineStride img_stride hz)
        (pixAt (lineBase img_stride line_idx hz) (lineStride img_stride hz)
          (lineLen w h hz - 1))
        ((List.range m).foldl (fun s k => forChannels (chans blurAlpha)
            (primeRightChan (chans blurAlpha) r (k + 1))
            (advanceSrc (lineStride img_stride hz)
              (pixAt (lineBase img_stride line_idx hz) (lineStride img_stride hz)
                (lineLen w h hz - 1)) s))
          (primeLeft (chans blurAlpha) r
            (lineInit bm st (lineBase img_stride line_idx hz))))) k = true)
    (hE : ∀ x s, x < lineLen w h hz →
      SweepInv bm (lineBase img_stride line_idx hz) (lineStride img_stride hz)
        (lineLen w h hz) r (chans blurAlpha) st.length (divSum r) x s →
      ∀ k, k < chans blurAlpha →
      g.emit (emitPrep (lineStride img_stride hz)
        (pixAt (lineBase img_stride line_idx hz) (lineStride img_stride hz)
          (lineLen w h hz - 1)) (r * 2 + 1) s) k = true)
    (hS : ∀ x e, x + 1 < lineLen w h hz →
      EmitInv bm (lineBase img_stride line_idx hz) (lineStride img_stride hz)
        (lineLen w h hz) r (chans blurAlpha) st.length (divSum r) x e →
      ∀ k, k < chans blurAlpha →
      g.slide { e with dst := e.dst + 4 * lineStride img_stride hz } k = true) :
    blur_lineG g fuel bm w h img_stride r blurAlpha line_idx hz st =
      blur_line fuel bm w h img_stride r blurAlpha line_idx hz st := by
  rw [blur_lineG_unfold, blur_line_eq_sweep, primeLeftG_eq hg r _ hLeft]
  simp only [Option.some_bind]
  rw [primeRightG_eq hg r _ _ _ hRight]
  simp only [Option.some_bind]
  have hinv := sweepStart_inv bm (lineBase img_stride line_idx hz) (lineStride img_stride hz)
    (lineLen w h hz) r (chans blurAlpha) (divSum r) st hs hn (chans_pos _) (chans_le _) hL
  have := sweepG_eq hg hs (chans_le blurAlpha) hL hb hE hS fuel 0 _ (by omega) hinv
  unfold sweepStart at this
  unfold lineInit
  rw [this]
  rfl

/-! ## Bounds checks -/

theorem slot_cell_lt {slot d c k L : Nat} (h1 : slot < d) (hk : k < c) (hL : d * c ≤ L) :
    slot * c + k < L := by
  have h2 : (slot + 1) * c ≤ d * c := Nat.mul_le_mul_right c h1
  have h3 : (slot + 1) * c = slot * c + c := by ring
  omega

/-- Shape of the frame before the channel loop of iteration `m` of the loop at lines 48-55. -/
theorem leftFrame (bm st0 : List Nat) (base stride n r : Nat) {c : Nat} (hc : c ≤ 4)
    (hL : (r * 2 + 1) * c ≤ st0.length) (m : Nat) (hm : m ≤ r) :
    ∃ st sm so,
      (List.range m).foldl (fun s i => forChannels c (primeLeftChan c i) s)
        (lineInit bm st0 base) =
        { lineInit bm st0 base with stack := st, sum := sm, sum_out := so } ∧
      st.length = st0.length ∧ sm.length = 4 ∧ so.length = 4 ∧
      (∀ j, j < c →
        rdI sm j = wrap32 (Asum (winVal bm base stride n r j) m 0) ∧
        rdI so j = wrap32 (Wsum (winVal bm base stride n r j) m 0)) := by
  have hp0 : pixAt base stride 0 = base := by simp [pixAt]
  obtain ⟨st, sm, so, e, l0, l1, l2, _, hsum⟩ :=
    primeLeft_upto bm base stride n r hc hL (lineInit bm st0 base)
      rfl hp0.symm rfl rfl rfl rdI_zeros rdI_zeros m (by omega)
  exact ⟨st, sm, so, e, l0, l1, l2, hsum⟩

/-- Shape of the frame before the channel loop of iteration `i = m + 1` of the loop at lines
56-67, after the statement at lines 57-59. -/
theorem rightFrame (bm st0 : List Nat) (base stride n r : Nat) {c : Nat} (hs : 1 ≤ stride)
    (hn : 1 ≤ n) (hc0 : 0 < c) (hc : c ≤ 4) (hL : (r * 2 + 1) * c ≤ st0.length) (m : Nat)
    (hm : m < r) :
    ∃ st sm so si sti,
      advanceSrc stride (pixAt base stride (n - 1))
        ((List.range m).foldl (fun s k => forChannels c (primeRightChan c r (k + 1))
          (advanceSrc stride (pixAt base stride (n - 1)) s))
          (primeLeft c r (lineInit bm st0 base))) =
        { lineInit bm st0 base with
          stack := st, sum := sm, sum_out := so, sum_in := si, stack_i := sti
          src := pixAt base stride (min (m + 1) (n - 1)) } ∧
      st.length = st0.length ∧ sm.length = 4 ∧ so.length = 4 ∧ si.length = 4 ∧
      (∀ j, j < c →
        rdI sm j = wrap32 (Asum (winVal bm base stride n r j) (r + 1) 0 +
          Bsum (winVal bm base stride n r j) (r : Int) m (r + 1)) ∧
        rdI si j = wrap32 (Wsum (winVal bm base stride n r j) m (r + 1))) := by
  have hp0 : pixAt base stride 0 = base := by simp [pixAt]
  obtain ⟨st1, sm1, so1, e1, l0, l1, l2, hS1, hsum1⟩ :=
    primeLeft_spec bm base stride n r hc hL (lineInit bm st0 base)
      rfl hp0.symm rfl rfl rfl rdI_zeros rdI_zeros
  rw [e1]
  obtain ⟨st2, sm2, si2, sti, e2, m0, m1, m3, _, hsum2⟩ :=
    primeRight_upto bm base stride n r hs hn hc0 hc hL
      { lineInit bm st0 base with stack := st1, sum := sm1, sum_out := so1 }
      rfl hp0.symm l0 l1 rfl hS1 (fun j hj => (hsum1 j hj).1) rdI_zeros m (by omega)
  rw [e2, advanceSrc_eq hs hn _ m rfl]
  exact ⟨st2, sm2, so1, si2, sti, rfl, m0, m1, l2, m3, hsum2⟩

/-- The bounds checks reject a line that does not lie inside the buffer: a row of two pixels
in a buffer of six bytes, and a scratch buffer of two bytes. -/
theorem blur_line_checked_rejects :
    blur_line_checked 2 [1, 2, 3, 4, 5, 6] 2 1 8 1 false 0 true [0, 0, 0, 0, 0, 0, 0, 0, 0] =
      none ∧
    blur_line_checked 2 [1, 2, 3, 4, 5, 6, 7] 2 1 8 0 false 0 true [0, 0] = none := by
  decide

theorem arithGuard_resp (B : Int) (c r : Nat) : GuardResp (arithGuard B c r) c := by
  refine ⟨?_, ?_, ?_, ?_⟩
  · rintro i k s t _ ⟨⟨a1, a2, a3, a4, a5, a6, a7, a8, a9, a10, a11, a12⟩, b⟩
    simp only [arithGuard, a1, a4, a9, a10]
  · rintro i k s t _ ⟨a1, a2, a3, a4, a5, a6, a7, a8, a9, a10, a11, a12⟩
    simp only [arithGuard, a1, a4, a9, a11]
  · rintro k s t _ ⟨⟨a1, a2, a3, a4, a5, a6, a7, a8, a9, a10, a11, a12⟩, b⟩
    simp only [arithGuard, rd_set, a1, a3, a4, a5, a9, a10, a11, a12, b]
  · intro k s bm _ _
    rfl

theorem Wsum_head (v : Nat → Int) (m x : Nat) :
    Wsum v (m + 1) x = v x + Wsum v m (x + 1) := by
  induction m with
  | zero => simp [Wsum]
  | succ m ih =>
    have e : x + 1 + m = x + (m + 1) := by omega
    rw [Wsum, ih, Wsum, e]
    ring

theorem Wsum_le_Asum (v : Nat → Int) (h : ∀ a, 0 ≤ v a) (m x : Nat) :
    Wsum v m x ≤ Asum v m x := by
  induction m with
  | zero => simp [Wsum, Asum]
  | succ m ih =>
    simp only [Wsum, Asum]
    have h0 := h (x + m)
    have : (0 : Int) ≤ (m : Int) * v (x + m) := mul_nonneg (by omega) h0
    linarith

theorem ramp_le (m r : Int) (h0 : 0 ≤ m) (h1 : m ≤ r) :
    (m + 1) * (m + 2) ≤ 2 * (r + 1) ^ 2 := by
  have h2 := mul_le_mul h1 h1 h0 (by linarith : (0 : Int) ≤ r)
  have h3 := mul_nonneg h0 h0
  linarith

theorem fall_le (q r : Int) (h0 : 0 ≤ q) (h1 : q ≤ r) :
    (r + 1) * (r + 2) + q * (2 * r - q + 1) ≤ 2 * (r + 1) ^ 2 := by
  have h2 := mul_nonneg (by linarith : (0 : Int) ≤ r - q) (by linarith : (0 : Int) ≤ r - q)
  linarith

theorem self_le_sq (r : Int) (h0 : 0 ≤ r) : r + 1 ≤ (r + 1) ^ 2 := by
  have h2 := mul_nonneg h0 h0
  linarith

theorem wrap32_of_range {r : Nat} (hr : r ≤ 2900) {x : Int} (h0 : 0 ≤ x)
    (h1 : x ≤ 255 * ((r : Int) + 1) ^ 2) : wrap32 x = x := by
  obtain ⟨_, d1⟩ := sq_bound hr
  exact wrap32_id (by omega) (by omega)

/-- Exact values of the loop at lines 48-55, iteration `m`. -/
theorem left_range (v : Nat → Int) (hv : ∀ a, 0 ≤ v a ∧ v a ≤ 255) (r m : Nat) (hm : m ≤ r) :
    (0 ≤ Asum v m 0 ∧ Asum v m 0 ≤ 255 * ((r : Int) + 1) ^ 2) ∧
    (0 ≤ Wsum v m 0 ∧ Wsum v m 0 ≤ 255 * ((r : Int) + 1) ^ 2) ∧
    (0 ≤ v m * ((m : Int) + 1) ∧ v m * ((m : Int) + 1) ≤ 255 * ((r : Int) + 1) ^ 2) ∧
    (0 ≤ Asum v m 0 + v m * ((m : Int) + 1) ∧
      Asum v m 0 + v m * ((m : Int) + 1) ≤ 255 * ((r : Int) + 1) ^ 2) ∧
    (0 ≤ Wsum v m 0 + v m ∧ Wsum v m 0 + v m ≤ 255 * ((r : Int) + 1) ^ 2) := by
  obtain ⟨a0, a1⟩ := Asum_bounds v 255 hv m 0
  obtain ⟨b0, b1⟩ := Asum_bounds v 255 hv (m + 1) 0
  obtain ⟨w0, w1⟩ := Wsum_bounds v 255 hv m 0
  obtain ⟨u0, u1⟩ := Wsum_bounds v 255 hv (m + 1) 0
  obtain ⟨c0, c1⟩ := hv m
  simp only [Asum, Wsum, Nat.zero_add] at b0 b1 u0 u1
  push_cast at b1 u1
  have hmr : (m : Int) ≤ r := by exact_mod_cast hm
  have hm0 : (0 : Int) ≤ m := by omega
  have k1 := ramp_le m r hm0 hmr
  have k2 : ((m : Int) + 1) ≤ ((r : Int) + 1) ^ 2 := by linarith
  have k3 : (m : Int) * (m + 1) ≤ (m + 1) * (m + 2) := by linarith
  have p0 : 0 ≤ v m * ((m : Int) + 1) := mul_nonneg c0 (by omega)
  have p1 : v m * ((m : Int) + 1) ≤ 255 * ((m : Int) + 1) :=
    mul_le_mul_of_nonneg_right c1 (by omega)
  refine ⟨⟨a0, by linarith⟩, ⟨w0, by linarith⟩, ⟨p0, by linarith⟩, ⟨by linarith, by linarith⟩,
    ⟨by linarith, by linarith⟩⟩

/-- Exact values of the loop at lines 56-67, iteration `i = m + 1`. -/
theorem right_range (v : Nat → Int) (hv : ∀ a, 0 ≤ v a ∧ v a ≤ 255) (r m : Nat) (hm : m < r) :
    (0 ≤ Asum v (r + 1) 0 + Bsum v (r : Int) m (r + 1) ∧
      Asum v (r + 1) 0 + Bsum v (r : Int) m (r + 1) ≤ 255 * ((r : Int) + 1) ^ 2) ∧
    (0 ≤ Wsum v m (r + 1) ∧ Wsum v m (r + 1) ≤ 255 * ((r : Int) + 1) ^ 2) ∧
    (0 ≤ (r : Int) + 1 - ((m : Int) + 1) ∧
      (r : Int) + 1 - ((m : Int) + 1) ≤ 255 * ((r : Int) + 1) ^ 2) ∧
    (0 ≤ v (r + 1 + m) * ((r : Int) + 1 - ((m : Int) + 1)) ∧
      v (r + 1 + m) * ((r : Int) + 1 - ((m : Int) + 1)) ≤ 255 * ((r : Int) + 1) ^ 2) ∧
    (0 ≤ Asum v (r + 1) 0 + Bsum v (r : Int) m (r + 1) +
        v (r + 1 + m) * ((r : Int) + 1 - ((m : Int) + 1)) ∧
      Asum v (r + 1) 0 + Bsum v (r : Int) m (r + 1) +
        v (r + 1 + m) * ((r : Int) + 1 - ((m : Int) + 1)) ≤ 255 * ((r : Int) + 1) ^ 2) ∧
    (0 ≤ Wsum v m (r + 1) + v (r + 1 + m) ∧
      Wsum v m (r + 1) + v (r + 1 + m) ≤ 255 * ((r : Int) + 1) ^ 2) := by
  obtain ⟨a0, a1⟩ := Asum_bounds v 255 hv (r + 1) 0
  obtain ⟨b0, b1⟩ := Bsum_bounds v 255 hv r m (r + 1) (by omega)
  obtain ⟨d0, d1⟩ := Bsum_bounds v 255 hv r (m + 1) (r + 1) (by omega)
  obtain ⟨w0, w1⟩ := Wsum_bounds v 255 hv m (r + 1)
  obtain ⟨u0, u1⟩ := Wsum_bounds v 255 hv (m + 1) (r + 1)
  obtain ⟨c0, c1⟩ := hv (r + 1 + m)
  simp only [Bsum, Wsum] at d0 d1 u0 u1
  push_cast at a1 d1 u1
  have hmr : (m : Int) + 1 ≤ r := by exact_mod_cast hm
  have hm0 : (0 : Int) ≤ m := by omega
  have k1 := fall_le ((m : Int) + 1) r (by omega) hmr
  have k0 := fall_le (m : Int) r hm0 (by omega)
  have k2 : ((r : Int) + 1) ≤ ((r : Int) + 1) ^ 2 := by linarith
  have e : ((r : Int) - m) = (r : Int) + 1 - ((m : Int) + 1) := by ring
  rw [e] at d0 d1
  have p0 : 0 ≤ v (r + 1 + m) * ((r : Int) + 1 - ((m : Int) + 1)) := mul_nonneg c0 (by omega)
  have p1 : v (r + 1 + m) * ((r : Int) + 1 - ((m : Int) + 1)) ≤
      255 * ((r : Int) + 1 - ((m : Int) + 1)) := mul_le_mul_of_nonneg_right c1 (by omega)
  refine ⟨⟨by linarith, by linarith⟩, ⟨w0, by linarith⟩, ⟨by omega, by linarith⟩,
    ⟨p0, by linarith⟩, ⟨by linarith, by linarith⟩, ⟨by linarith, by linarith⟩⟩

/-- Exact values of the update step at lines 96-105 for the move from position `x` to
`x + 1`. -/
theorem slide_range (v : Nat → Int) (hv : ∀ a, 0 ≤ v a ∧ v a ≤ 255) (r x : Nat) :
    (0 ≤ triSum v r x - Wsum v (r + 1) x ∧
      triSum v r x - Wsum v (r + 1) x ≤ 255 * ((r : Int) + 1) ^ 2) ∧
    (0 ≤ Wsum v (r + 1) x - v x ∧ Wsum v (r + 1) x - v x ≤ 255 * ((r : Int) + 1) ^ 2) ∧
    (0 ≤ Wsum v r (x + r + 1) + v (x + r + 1 + r) ∧
      Wsum v r (x + r + 1) + v (x + r + 1 + r) ≤ 255 * ((r : Int) + 1) ^ 2) ∧
    (0 ≤ triSum v r x - Wsum v (r + 1) x + (Wsum v r (x + r + 1) + v (x + r + 1 + r)) ∧
      triSum v r x - Wsum v (r + 1) x + (Wsum v r (x + r + 1) + v (x + r + 1 + r)) ≤
        255 * ((r : Int) + 1) ^ 2) ∧
    (0 ≤ Wsum v (r + 1) x - v x + v (x + r + 1) ∧
      Wsum v (r + 1) x - v x + v (x + r + 1) ≤ 255 * ((r : Int) + 1) ^ 2) ∧
    (0 ≤ Wsum v r (x + r + 1) + v (x + r + 1 + r) - v (x + r + 1) ∧
      Wsum v r (x + r + 1) + v (x + r + 1 + r) - v (x + r + 1) ≤
        255 * ((r : Int) + 1) ^ 2) := by
  have hv0 : ∀ a, 0 ≤ v a := fun a => (hv a).1
  obtain ⟨s0, s1⟩ := triSum_bounds v 255 hv r x
  obtain ⟨t0, t1⟩ := triSum_bounds v 255 hv r (x + 1)
  rw [triSum_shift] at t0 t1
  obtain ⟨o0, o1⟩ := Wsum_bounds v 255 hv (r + 1) x
  have hle := Wsum_le_Asum v hv0 (r + 1) x
  obtain ⟨b0, _⟩ := Bsum_bounds v 255 hv r r (x + r + 1) (Nat.le_refl r)
  have hS : triSum v r x = Asum v (r + 1) x + Bsum v (r : Int) r (x + r + 1) := rfl
  obtain ⟨q0, q1⟩ := Wsum_bounds v 255 hv r (x + 1)
  have hq : Wsum v (r + 1) x - v x = Wsum v r (x + 1) := by rw [Wsum_head]; ring
  obtain ⟨i0, i1⟩ := Wsum_bounds v 255 hv (r + 1) (x + r + 1)
  simp only [Wsum] at i0 i1
  obtain ⟨n0, n1⟩ := Wsum_bounds v 255 hv (r + 1) (x + 1)
  have hn : Wsum v (r + 1) (x + 1) = Wsum v (r + 1) x - v x + v (x + r + 1) := by
    rw [Wsum_shift]
    have : x + (r + 1) = x + r + 1 := by omega
    rw [this]
  rw [hn] at n0 n1
  obtain ⟨j0, j1⟩ := Wsum_bounds v 255 hv r (x + r + 1 + 1)
  have hj : Wsum v r (x + r + 1 + 1) =
      Wsum v r (x + r + 1) + v (x + r + 1 + r) - v (x + r + 1) := by
    rw [Wsum_shift]; ring
  rw [hj] at j0 j1
  rw [hq]
  push_cast at o1 q1 i1 n1 j1
  have hr0 : (0 : Int) ≤ r := by omega
  have k2 : ((r : Int) + 1) ≤ ((r : Int) + 1) ^ 2 := by linarith
  refine ⟨⟨by linarith, by linarith⟩, ⟨q0, by linarith⟩, ⟨i0, by linarith⟩,
    ⟨by linarith, by linarith⟩, ⟨?_, ?_⟩, ⟨j0, by linarith⟩⟩
  · rw [← hq]; exact n0
  · rw [← hq]; linarith

/-- Below the overflow threshold every range check of `blur_line` passes. -/
theorem blur_line_ranged_eq (fuel : Nat) (bm : List Nat) (w h img_stride r : Nat)
    (blurAlpha : Bool) (line_idx : Nat) (hz : Bool) (st : List Nat)
    (hn : 1 ≤ lineLen w h hz) (hs : 1 ≤ lineStride img_stride hz)
    (hb : pixAt (lineBase img_stride line_idx hz) (lineStride img_stride hz)
      (lineLen w h hz - 1) + chans blurAlpha ≤ bm.length)
    (hL : (r * 2 + 1) * chans blurAlpha ≤ st.length) (hB : Bytes bm) (hr : r ≤ 2900) :
    blur_line_ranged fuel bm w h img_stride r blurAlpha line_idx hz st =
      blur_line fuel bm w h img_stride r blurAlpha line_idx hz st := by
  have hc := chans_le blurAlpha
  have hc0 := chans_pos blurAlpha
  have hp0 : pixAt (lineBase img_stride line_idx hz) (lineStride img_stride hz) 0 =
      lineBase img_stride line_idx hz := by simp [pixAt]
  show blur_lineG (arithGuard (255 * ((r : Int) + 1) ^ 2) (chans blurAlpha) r) fuel bm w h
    img_stride r blurAlpha line_idx hz st = _
  refine blur_lineG_eq _ fuel bm w h img_stride r blurAlpha line_idx hz st hn hs hb hL
    (arithGuard_resp _ _ _) ?_ ?_ ?_ ?_
  · intro m hm k hk
    obtain ⟨st1, sm, so, e, l0, l1, l2, hsum⟩ :=
      leftFrame bm st (lineBase img_stride line_idx hz) (lineStride img_stride hz)
        (lineLen w h hz) r hc hL m hm
    rw [e]
    have hv := winVal_range hB (lineBase img_stride line_idx hz) (lineStride img_stride hz)
      (lineLen w h hz) r k
    obtain ⟨⟨a0, a1⟩, ⟨w0, w1⟩, g1, g2, g3⟩ := left_range _ hv r m hm
    have hbyte : (rd bm (lineBase img_stride line_idx hz + k) : Int) =
        winVal bm (lineBase img_stride line_idx hz) (lineStride img_stride hz)
          (lineLen w h hz) r k m := by
      unfold winVal
      have h1 : m - r = 0 := by omega
      rw [h1, Nat.zero_min, hp0]
    simp only [arithGuard, lineInit, inRange, Bool.and_eq_true, decide_eq_true_eq]
    rw [(hsum k hk).1, (hsum k hk).2, wrap32_of_range hr a0 a1, wrap32_of_range hr w0 w1, hbyte]
    exact ⟨⟨g1, g2⟩, g3⟩
  · intro m hm k hk
    obtain ⟨st1, sm, so, si, sti, e, l0, l1, l2, l3, hsum⟩ :=
      rightFrame bm st (lineBase img_stride line_idx hz) (lineStride img_stride hz)
        (lineLen w h hz) r hs hn hc0 hc hL m hm
    rw [e]
    have hv := winVal_range hB (lineBase img_stride line_idx hz) (lineStride img_stride hz)
      (lineLen w h hz) r k
    obtain ⟨⟨a0, a1⟩, ⟨w0, w1⟩, g0, g1, g2, g3⟩ := right_range _ hv r m hm
    have hbyte : (rd bm (pixAt (lineBase img_stride line_idx hz) (lineStride img_stride hz)
        (min (m + 1) (lineLen w h hz - 1)) + k) : Int) =
        winVal bm (lineBase img_stride line_idx hz) (lineStride img_stride hz)
          (lineLen w h hz) r k (r + 1 + m) := by
      unfold winVal
      have h1 : r + 1 + m - r = m + 1 := by omega
      rw [h1]
    simp only [arithGuard, lineInit, inRange, Bool.and_eq_true, decide_eq_true_eq]
    rw [(hsum k hk).1, (hsum k hk).2, wrap32_of_range hr a0 a1, wrap32_of_range hr w0 w1, hbyte]
    push_cast
    exact ⟨⟨⟨g0, g1⟩, g2⟩, g3⟩
  · intro x s _ _ k _
    rfl
  · intro x e hx hi k hk
    have hv := winVal_range hB (lineBase img_stride line_idx hz) (lineStride img_stride hz)
      (lineLen w h hz) r k
    obtain ⟨g1, g2, g3, g4, g5, g6⟩ := slide_range _ hv r x
    have hd : 0 < r * 2 + 1 := by omega
    have hbyte : (rd e.bitmap (e.src + k) : Int) =
        winVal bm (lineBase img_stride line_idx hz) (lineStride img_stride hz)
          (lineLen w h hz) r k (x + r + 1 + r) := by
      unfold winVal
      have h1 : x + r + 1 + r - r = x + r + 1 := by omega
      rw [h1, hi.src_eq, hi.frame]
      intro y j' hy hj'
      have h2 : y < min (x + r + 1) (lineLen w h hz - 1) := by omega
      have := pixAt_lt (lineBase img_stride line_idx hz) hs h2
      omega
    have hold : (rd e.stack (e.stack_drop * chans blurAlpha + k) : Int) =
        winVal bm (lineBase img_stride line_idx hz) (lineStride img_stride hz)
          (lineLen w h hz) r k x := by
      have := hi.window 0 k hd hk
      rw [Nat.add_zero] at this
      rw [hi.sd_eq, this]
    have hin : e.stack_drop * chans blurAlpha + k < e.stack.length := by
      rw [hi.sd_eq, hi.len_st]
      exact slot_cell_lt (Nat.mod_lt x hd) hk hL
    have hmid : (rd (e.stack.set (e.stack_drop * chans blurAlpha + k) (rd e.bitmap (e.src + k)))
        (e.stack_i * chans blurAlpha + k) : Int) =
        winVal bm (lineBase img_stride line_idx hz) (lineStride img_stride hz)
          (lineLen w h hz) r k (x + r + 1) := by
      rw [rd_set]
      by_cases hr0 : r = 0
      · subst hr0
        have h1 : e.stack_i = e.stack_drop := by
          rw [hi.si_eq, hi.sd_eq]; simp [Nat.mod_one]
        rw [h1, if_pos ⟨rfl, hin⟩, hbyte]
      · have hne : e.stack_i ≠ e.stack_drop := by
          rw [hi.si_eq, hi.sd_eq]
          have : r + x + 1 = x + (r + 1) := by omega
          rw [this]
          exact mod_add_ne x (r + 1) _ (by omega) (by omega)
        have hne2 : ¬ (e.stack_drop * chans blurAlpha + k = e.stack_i * chans blurAlpha + k ∧
            e.stack_drop * chans blurAlpha + k < e.stack.length) := by
          intro hh
          exact hne ((slot_inj hk hk).mp hh.1).1.symm
        rw [if_neg hne2, hi.si_eq]
        have := hi.window (r + 1) k (by omega) hk
        have e1 : x + (r + 1) = r + x + 1 := by omega
        have e2 : x + (r + 1) = x + r + 1 := by omega
        rw [e1] at this
        rw [this, e1.symm, e2]
    obtain ⟨s1, s2, s3⟩ := hi.sums k hk
    simp only [arithGuard, inRange, Bool.and_eq_true, decide_eq_true_eq]
    rw [hmid, hold, hbyte, s1, s2, s3,
      wrap32_triSum hB _ _ _ _ _ hr, wrap32_Wsum hB _ _ _ _ _ _ (by omega),
      wrap32_Wsum hB _ _ _ _ _ _ (by omega)]
    exact ⟨⟨⟨⟨⟨g1, g2⟩, g3⟩, g4⟩, g5⟩, g6⟩

/-- The range checks reject an accumulator value above the bound: with the bound set to `10`
the first assignment of a line of bytes `200` fails. -/
theorem arithGuard_rejects :
    blur_lineG (arithGuard 10 3 1) 2 [200, 200, 200, 255, 200, 200, 200, 255] 2 1 8 1 false 0
      true (List.replicate 9 0) = none := by
  decide

/-- C18: no `int32_t` overflow for realistic radii.  For every line of length `n ≥ 1` inside a
buffer of bytes and every radius `0 ≤ r ≤ 2900`, the bound `255*(r+1)^2` is below `2^31`, and
the run of `blur_line` that checks the exact integer value of every product and of every
value assigned to `sum[j]`, `sum_in[j]`, `sum_out[j]` (the intermediate values inside the
update step included) against the range `[0, 255*(r+1)^2]` passes all its checks, returns,
and gives the result of `blur_line`: the `int32_t` arithmetic coincides with exact integer
arithmetic and no accumulator goes negative. -/
theorem blur_line_no_overflow (fuel : Nat) (bm : List Nat) (w h img_stride r : Nat)
    (blurAlpha : Bool) (line_idx : Nat) (hz : Bool) (st : List Nat)
    (hn : 1 ≤ lineLen w h hz) (hs : 1 ≤ lineStride img_stride hz)
    (hin : lineAddr img_stride hz line_idx (lineLen w h hz - 1) (chans blurAlpha) ≤ bm.length)
    (hb : Bytes bm) (hL : (r * 2 + 1) * chans blurAlpha ≤ st.length)
    (hf : lineLen w h hz ≤ fuel) (hr : r ≤ 2900) :
    255 * ((r : Int) + 1) ^ 2 < 2 ^ 31 ∧
    blur_line_ranged fuel bm w h img_stride r blurAlpha line_idx hz st =
      blur_line fuel bm w h img_stride r blurAlpha line_idx hz st ∧
    ∃ bm' st', blur_line_ranged fuel bm w h img_stride r blurAlpha line_idx hz st =
      some (bm', st') := by
  unfold lineAddr at hin
  obtain ⟨_, d1⟩ := sq_bound hr
  have key := blur_line_ranged_eq fuel bm w h img_stride r blurAlpha line_idx hz st hn hs hin
    hL hb hr
  obtain ⟨bm', st', e, _⟩ :=
    blur_line_spec fuel bm w h img_stride r blurAlpha line_idx hz st hn hs hin hL hf
  exact ⟨by omega, key, bm', st', by rw [key, e]⟩

/-- Instance of C18: a row of two pixels, radius 1. -/
theorem blur_line_no_overflow_witness :
    (1 ≤ lineLen 2 1 true ∧ 1 ≤ lineStride 8 true ∧
      lineAddr 8 true 0 (lineLen 2 1 true - 1) (chans false) ≤
        [10, 20, 30, 4, 250, 255, 70, 8].length ∧
      Bytes [10, 20, 30, 4, 250, 255, 70, 8] ∧
      (1 * 2 + 1) * chans false ≤ (List.replicate 9 0).length ∧ lineLen 2 1 true ≤ 2 ∧
      1 ≤ 2900) ∧
    255 * (((1 : Nat) : Int) + 1) ^ 2 < 2 ^ 31 ∧
    blur_line_ranged 2 [10, 20, 30, 4, 250, 255, 70, 8] 2 1 8 1 false 0 true
        (List.replicate 9 0) =
      blur_line 2 [10, 20, 30, 4, 250, 255, 70, 8] 2 1 8 1 false 0 true (List.replicate 9 0) ∧
    ∃ bm' st', blur_line_ranged 2 [10, 20, 30, 4, 250, 255, 70, 8] 2 1 8 1 false 0 true
      (List.replicate 9 0) = some (bm', st') :=
  ⟨⟨by decide, by decide, by decide, by unfold Bytes; decide, by decide, by decide,
      by decide⟩,
    blur_line_no_overflow 2 [10, 20, 30, 4, 250, 255, 70, 8] 2 1 8 1 false 0 true
      (List.replicate 9 0) (by decide) (by decide) (by decide) (by unfold Bytes; decide)
      (by decide) (by decide) (by decide)⟩

end StackBlur
